import Mathlib

/-!
Verification of the md-spreadsheet-parser core (`src/md_spreadsheet_parser/`).

Strings are modelled as `List Char`.  Python `str` methods used by the code
(`strip`, `split`, `replace`, `lower`, `in`, `startswith`) are embedded as
executable functions below.  Functions that skip several characters per step
(`str.replace`, `str.split` with a multi-character separator, and the
regex split of `parse_row`) are written with an explicit fuel argument equal
to the input length so that they are structurally recursive and evaluate
inside the kernel.
-/

deriving instance DecidableEq for Except

namespace MdSP

abbrev Str := List Char

/-- Convenience: character list of a string literal. -/
def strL (s : String) : Str := s.toList

/-- Python's default `str.strip` whitespace set (ASCII part, which is all the
repository's inputs use). -/
def isPySpace (c : Char) : Bool :=
  c == ' ' || c == '\t' || c == '\n' || c == '\r' || c == '\x0B' || c == '\x0C'

/-- `str.lstrip()`. -/
def pyStripLeft (s : Str) : Str := s.dropWhile isPySpace

/-- `str.rstrip()`. -/
def pyStripRight (s : Str) : Str := (s.reverse.dropWhile isPySpace).reverse

/-- `str.strip()`. -/
def pyStrip (s : Str) : Str := pyStripRight (pyStripLeft s)

/-- `str.lower()` (ASCII behaviour). -/
def pyLower (s : Str) : Str := s.map Char.toLower

/-- `str.split("\n")`: splitting on a single newline character.
`splitOnNl [] = [[]]`, matching Python's `"".split("\n") == [""]`. -/
def splitOnNl : Str → List Str
  | [] => [[]]
  | c :: rest =>
    if c = '\n' then [] :: splitOnNl rest
    else
      match splitOnNl rest with
      | r :: rs => (c :: r) :: rs
      | [] => [[c]]

/-- Substring test, `pat in s` for Python strings. -/
def containsSub (pat : Str) : Str → Bool
  | [] => pat.isPrefixOf []
  | s@(_ :: rest) => pat.isPrefixOf s || containsSub pat rest

/-- Fueled worker for `str.split(sep)` with a non-empty separator. -/
def pySplitGo (sep : Str) : Nat → Str → List Str
  | _, [] => [[]]
  | 0, s => [s]
  | fuel + 1, s@(a :: rest) =>
    if sep.isPrefixOf s then
      [] :: pySplitGo sep fuel (s.drop sep.length)
    else
      match pySplitGo sep fuel rest with
      | r :: rs => (a :: r) :: rs
      | [] => [[a]]

/-- Python `str.split(sep)` (the separator is never empty in this code base;
the guard mirrors that `str.split` raises on an empty separator, which the
repository never triggers). -/
def pySplit (sep s : Str) : List Str :=
  if sep = [] then [s] else pySplitGo sep s.length s

/-- Fueled worker for `str.replace(pat, rep)` with a non-empty pattern. -/
def pyReplaceGo (pat rep : Str) : Nat → Str → Str
  | _, [] => []
  | 0, s => s
  | fuel + 1, s@(a :: rest) =>
    if pat.isPrefixOf s then rep ++ pyReplaceGo pat rep fuel (s.drop pat.length)
    else a :: pyReplaceGo pat rep fuel rest

/-- Python `str.replace(pat, rep)` (non-overlapping, left to right; the code
base never calls it with an empty pattern). -/
def pyReplace (pat rep s : Str) : Str :=
  if pat = [] then s else pyReplaceGo pat rep s.length s

/-- Fueled worker for `re.split(f"(?<!\\\\){re.escape(sep)}", line)`:
split on every occurrence of `sep` whose immediately preceding character in
the original string is not a backslash.  `prev` is that preceding
character (`none` at the start of the string). -/
def splitEscGo (sep : Str) : Nat → Str → Option Char → List Str
  | _, [], _ => [[]]
  | 0, s, _ => [s]
  | fuel + 1, s@(a :: rest), prev =>
    if sep.isPrefixOf s ∧ prev ≠ some '\\' then
      [] :: splitEscGo sep fuel (s.drop sep.length) (some (sep.getLastD a))
    else
      match splitEscGo sep fuel rest (some a) with
      | r :: rs => (a :: r) :: rs
      | [] => [[a]]

/-- The regex split used by `parse_row`: `re.split("(?<!\\\\)SEP", line)`. -/
def splitEsc (sep s : Str) : List Str :=
  if sep = [] then [s] else splitEscGo sep s.length s none

/-- `"#" * n` style leading-hash count of a stripped line
(`for char in stripped: if char == "#": level += 1 else: break`). -/
def leadingHashCount (s : Str) : Nat := (s.takeWhile (· = '#')).length

/-! ## Schemas (`schemas.py`) -/

/-- `ParsingSchema` of `schemas.py`: configuration for parsing markdown
tables. -/
structure ParsingSchema where
  column_separator : Str := ['|']
  header_separator_char : Str := ['-']
  require_outer_pipes : Bool := false
  strip_whitespace : Bool := true
deriving DecidableEq, Repr

/-- `DEFAULT_SCHEMA = ParsingSchema()`. -/
def DEFAULT_SCHEMA : ParsingSchema := {}

/-- `MultiTableParsingSchema(ParsingSchema)` of `schemas.py`.
Modelled as a flat structure carrying the inherited fields. -/
structure MultiTableParsingSchema where
  column_separator : Str := ['|']
  header_separator_char : Str := ['-']
  require_outer_pipes : Bool := false
  strip_whitespace : Bool := true
  root_marker : Str := strL "# Tables"
  sheet_header_level : Nat := 2
  table_header_level : Option Nat := none
  capture_description : Bool := false
deriving DecidableEq, Repr

/-- The `ParsingSchema` part of a `MultiTableParsingSchema` (in Python this
is inheritance; `parse_table` only reads the base fields). -/
def MultiTableParsingSchema.base (s : MultiTableParsingSchema) : ParsingSchema :=
  { column_separator := s.column_separator
    header_separator_char := s.header_separator_char
    require_outer_pipes := s.require_outer_pipes
    strip_whitespace := s.strip_whitespace }

/-! ## Document model (`Table`, `Sheet`, `Workbook`) -/

/-- A parsed sidecar-metadata blob: a generic key/value structure (keys and
raw value texts). -/
abbrev KV := List (Str × Str)

/-- The `metadata` dict attached to a parsed `Table`.  The code stores
`{"schema_used": str(schema)}` and (in the evolved parsing module) a
`"visual"` entry; the two possible keys are modelled as two optional
fields. -/
structure TableMeta where
  schema_used : Option ParsingSchema := none
  visual : Option KV := none
deriving DecidableEq, Repr

/-- `Table` dataclass. -/
structure Table where
  headers : Option (List Str)
  rows : List (List Str)
  name : Option Str := none
  description : Option Str := none
  metadata : TableMeta := {}
deriving DecidableEq, Repr

/-- `Sheet` dataclass. -/
structure Sheet where
  name : Str
  tables : List Table
deriving DecidableEq, Repr

/-- `Workbook` dataclass. -/
structure Workbook where
  sheets : List Sheet
deriving DecidableEq, Repr

/-! ## Row tokenizer and separator detector (`core.py`) -/

/-- `clean_cell(cell, schema)` of `core.py`: strip whitespace (per schema),
then unescape `\SEP` to `SEP` when the cell contains a backslash. -/
def clean_cell (cell : Str) (schema : ParsingSchema) : Str :=
  let cell := if schema.strip_whitespace then pyStrip cell else cell
  if containsSub ['\\'] cell then
    pyReplace ('\\' :: schema.column_separator) schema.column_separator cell
  else cell

/-- `parse_row(line, schema)` of `core.py`. -/
def parse_row (line : Str) (schema : ParsingSchema) : Option (List Str) :=
  let line := pyStrip line
  if line = [] then none
  else
    let parts := splitEsc schema.column_separator line
    let parts :=
      if parts.length > 1 then
        let parts := if pyStrip (parts.headD []) = [] then parts.drop 1 else parts
        if parts ≠ [] ∧ pyStrip (parts.getLastD []) = [] then parts.dropLast else parts
      else parts
    some (parts.map (clean_cell · schema))

/-- `is_separator_row(row, schema)` of `core.py`.  Note: the Python loop
returns `True` for an empty row (the loop body never runs). -/
def is_separator_row (row : List Str) (schema : ParsingSchema) : Bool :=
  row.all fun cell =>
    pyStrip (pyReplace [':'] [] (pyReplace schema.header_separator_char [] cell)) = []
      && containsSub schema.header_separator_char cell

/-! ## Table parser (`parse_table`) -/

/-- The mutable state of `parse_table`'s loop. -/
structure PTState where
  headers : Option (List Str)
  rows : List (List Str)
  potential : Option (List Str)
deriving DecidableEq, Repr

/-- One iteration of the `for line in lines` loop of `parse_table`. -/
def ptStep (schema : ParsingSchema) (st : PTState) (line : Str) : PTState :=
  let line := pyStrip line
  if line = [] then st
  else
    match parse_row line schema with
    | none => st
    | some parsed_row =>
      match st.headers, st.potential with
      | none, some ph =>
        if is_separator_row parsed_row schema then
          { headers := some ph, rows := st.rows, potential := none }
        else
          { headers := none, rows := st.rows ++ [ph], potential := some parsed_row }
      | none, none => { st with potential := some parsed_row }
      | some _, _ => { st with rows := st.rows ++ [parsed_row] }

/-- Row-length normalization of `parse_table`: pad short rows with empty
cells, truncate long rows. -/
def normalizeRows (headerLen : Nat) (rows : List (List Str)) : List (List Str) :=
  rows.map fun row =>
    if row.length < headerLen then row ++ List.replicate (headerLen - row.length) []
    else if row.length > headerLen then row.take headerLen
    else row

/-- After the loop: flush a still-buffered `potential_header` into the
rows (`if potential_header is not None: rows.append(potential_header)`). -/
def finalizeRows (st : PTState) : List (List Str) :=
  st.rows ++ (match st.potential with | some p => [p] | none => [])

/-- The body of `parse_table` once the text has been split into lines. -/
def parseTableLines (lines : List Str) (schema : ParsingSchema) : Table :=
  let st := lines.foldl (ptStep schema) ⟨none, [], none⟩
  let rows :=
    match st.headers with
    | some hs => if hs ≠ [] then normalizeRows hs.length (finalizeRows st) else finalizeRows st
    | none => finalizeRows st
  { headers := st.headers, rows := rows,
    metadata := { schema_used := some schema } }

/-- `parse_table(markdown, schema=DEFAULT_SCHEMA)` of `core.py`. -/
def parse_table (markdown : Str) (schema : ParsingSchema := DEFAULT_SCHEMA) : Table :=
  parseTableLines (splitOnNl (pyStrip markdown)) schema

/-! ## Generator (`generator.py`) -/

/-- `"\n".join(lines)`. -/
def joinNl (lines : List Str) : Str := List.intercalate ['\n'] lines

/-- `f"{sep} {s} {sep}"`: wrap a rendered row in outer separators. -/
def wrapOuter (schema : ParsingSchema) (s : Str) : Str :=
  schema.column_separator ++ [' '] ++ s ++ [' '] ++ schema.column_separator

/-- `generate_table_markdown(table, schema)` of `generator.py`, for a plain
`ParsingSchema` (the `isinstance(schema, MultiTableParsingSchema)` branch that
emits a name/description block does not fire for the base class). -/
def generate_table_markdown (table : Table) (schema : ParsingSchema := DEFAULT_SCHEMA) : Str :=
  let sep := [' '] ++ schema.column_separator ++ [' ']
  let headerLines : List Str :=
    match table.headers with
    | some hs =>
      if hs ≠ [] then
        let header_row := List.intercalate sep hs
        let header_row :=
          if schema.require_outer_pipes then wrapOuter schema header_row else header_row
        let hsc3 := schema.header_separator_char ++ schema.header_separator_char
          ++ schema.header_separator_char
        let separator_row := List.intercalate sep (List.replicate hs.length hsc3)
        let separator_row :=
          if schema.require_outer_pipes then wrapOuter schema separator_row else separator_row
        [header_row, separator_row]
      else []
    | none => []
  let rowLines := table.rows.map fun row =>
    let row_str := List.intercalate sep row
    if schema.require_outer_pipes then wrapOuter schema row_str else row_str
  joinNl (headerLines ++ rowLines)

/-! ## Multi-table extraction, sheets, workbooks (`core.py`) -/

/-- `"#" * level + " "`. -/
def headerMarker (level : Nat) : Str := List.replicate level '#' ++ [' ']

/-- The closure state of `_extract_tables` in section mode. -/
structure ETState where
  tables : List Table
  current_table_name : Option Str
  current_table_lines : List Str
  current_description_lines : List Str
deriving Repr

/-- `process_table_block()` of `_extract_tables`: finalize the buffered block
into a `Table` (or silently skip it when it has no separator-containing
line, an empty (falsy) name, or no buffered lines). -/
def processTableBlock (schema : MultiTableParsingSchema) (st : ETState) : List Table :=
  match st.current_table_name with
  | some nm =>
    if nm ≠ [] ∧ st.current_table_lines ≠ [] then
      match st.current_table_lines.findIdx? (fun l => containsSub schema.column_separator l) with
      | some idx =>
        let desc_lines := st.current_description_lines ++ st.current_table_lines.take idx
        let table_content := joinNl (st.current_table_lines.drop idx)
        let description :=
          if schema.capture_description then
            let d := joinNl ((desc_lines.map pyStrip).filter (· ≠ []))
            if d = [] then none else some d
          else none
        let table := parse_table table_content schema.base
        st.tables ++ [{ table with name := some nm, description := description }]
      | none => st.tables
    else st.tables
  | none => st.tables

/-- One iteration of the section-mode line loop of `_extract_tables`. -/
def etStep (schema : MultiTableParsingSchema) (lvl : Nat) (st : ETState) (line : Str) : ETState :=
  let stripped := pyStrip line
  if (headerMarker lvl).isPrefixOf stripped then
    { tables := processTableBlock schema st
      current_table_name := some (pyStrip (stripped.drop (headerMarker lvl).length))
      current_table_lines := []
      current_description_lines := [] }
  else
    match st.current_table_name with
    | some _ => { st with current_table_lines := st.current_table_lines ++ [line] }
    | none => st

/-- Python truthiness of `table.headers`: present and non-empty. -/
def headersTruthy (table : Table) : Bool :=
  match table.headers with
  | some hs => hs ≠ []
  | none => false

/-- `_extract_tables(text, schema)` of `core.py`. -/
def _extract_tables (text : Str) (schema : MultiTableParsingSchema) : List Table :=
  match schema.table_header_level with
  | some lvl =>
    let lines := splitOnNl text
    let st := lines.foldl (etStep schema lvl) ⟨[], none, [], []⟩
    processTableBlock schema st
  | none =>
    let blocks := pySplit (strL "\n\n") text
    blocks.foldl
      (fun acc block =>
        if pyStrip block = [] then acc
        else if containsSub schema.column_separator block then
          let table := parse_table block schema.base
          if table.rows ≠ [] ∨ headersTruthy table then acc ++ [table]
          else acc
        else acc)
      []

/-- `parse_sheet(markdown, name, schema)` of `core.py`. -/
def parse_sheet (markdown : Str) (name : Str) (schema : MultiTableParsingSchema) : Sheet :=
  ⟨name, _extract_tables markdown schema⟩

/-- The mutable state of `parse_workbook`'s loop. -/
structure WBState where
  sheets : List Sheet
  current_sheet_name : Option Str
  current_sheet_lines : List Str
deriving Repr

/-- Close the current sheet, if its name is truthy
(`if current_sheet_name: sheets.append(parse_sheet(...))`). -/
def flushSheet (schema : MultiTableParsingSchema) (st : WBState) : List Sheet :=
  match st.current_sheet_name with
  | some nm =>
    if nm ≠ [] then st.sheets ++ [parse_sheet (joinNl st.current_sheet_lines) nm schema]
    else st.sheets
  | none => st.sheets

/-- A header line strictly above the sheet level: the loop's early-exit
(`break`) condition in `parse_workbook`. -/
def isWbBoundary (schema : MultiTableParsingSchema) (line : Str) : Bool :=
  let stripped := pyStrip line
  ['#'].isPrefixOf stripped && decide (leadingHashCount stripped < schema.sheet_header_level)

/-- One non-breaking iteration of `parse_workbook`'s loop. -/
def wbStep (schema : MultiTableParsingSchema) (st : WBState) (line : Str) : WBState :=
  let stripped := pyStrip line
  let marker := headerMarker schema.sheet_header_level
  if marker.isPrefixOf stripped then
    { sheets := flushSheet schema st
      current_sheet_name := some (pyStrip (stripped.drop marker.length))
      current_sheet_lines := [] }
  else
    match st.current_sheet_name with
    | some nm =>
      if nm ≠ [] then { st with current_sheet_lines := st.current_sheet_lines ++ [line] }
      else st
    | none => st

/-- `parse_workbook`'s `for line in lines[start_index:]` loop, with the
`break` on a higher-level section heading. -/
def wbLoop (schema : MultiTableParsingSchema) : List Str → WBState → WBState
  | [], st => st
  | line :: rest, st =>
    if isWbBoundary schema line then st
    else wbLoop schema rest (wbStep schema st line)

/-- The start index of `parse_workbook`: line after the first line whose
stripped text equals the (truthy) root marker; `none` when the marker is set
but never found. -/
def wbStart (schema : MultiTableParsingSchema) (lines : List Str) : Option Nat :=
  if schema.root_marker = [] then some 0
  else
    match lines.findIdx? (fun l => pyStrip l == schema.root_marker) with
    | some i => some (i + 1)
    | none => none

/-- `parse_workbook(markdown, schema)` of `core.py`. -/
def parse_workbook (markdown : Str)
    (schema : MultiTableParsingSchema := {}) : Workbook :=
  let lines := splitOnNl markdown
  match wbStart schema lines with
  | none => ⟨[]⟩
  | some start =>
    let st := wbLoop schema (lines.drop start) ⟨[], none, []⟩
    ⟨flushSheet schema st⟩

/-! ## Schema-driven conversion layer (`validation.py`)

`validation.py` imports `ConversionSchema` and `DEFAULT_CONVERSION_SCHEMA`
from `schemas.py`, but the revision of `schemas.py` in the tree does not
contain them (the tree mixes two evolution stages of the package); their
definitions below are modelled from the spec (§3, §4.8) and the behaviour
the repository's tests pin down.  `validate_table` and `_convert_value`
themselves are translated from `validation.py`. -/

/-- Python type annotations that `_convert_value` dispatches on.  `custom`
stands for any other class (e.g. `Decimal`), identified by an opaque tag. -/
inductive PyType where
  | int
  | float
  | bool
  | str
  | optional : PyType → PyType
  | custom : Nat → PyType
deriving DecidableEq, Repr

/-- Python values produced by conversion.  A converted float keeps its
accepted literal text verbatim (no claim inspects float arithmetic). -/
inductive PyVal where
  | vnone
  | vint : Int → PyVal
  | vfloat : Str → PyVal
  | vbool : Bool → PyVal
  | vstr : Str → PyVal
deriving DecidableEq, Repr

/-- The exceptions `validate_table` distinguishes: `ValueError` (with its
message) versus any other exception. -/
inductive ConvErr where
  | valueError : Str → ConvErr
  | otherError
deriving DecidableEq, Repr

/-- Modelled from the spec: `ConversionSchema` (§3) — an ordered list of
(true-literal, false-literal) pairs for boolean coercion and a mapping from
target type to converter function; its definition is imported by
`validation.py` but missing from the tree's `schemas.py`. -/
structure ConversionSchema where
  boolean_pairs : List (Str × Str) :=
    [(strL "true", strL "false"), (strL "yes", strL "no"),
     (strL "1", strL "0"), (strL "on", strL "off")]
  custom_converters : List (PyType × (Str → Except ConvErr PyVal)) := []

/-- Modelled from the spec: the default conversion schema (default boolean
pairs matching the test suite's `true/yes/1/on` vs `false/no/0/off`, no
custom converters). -/
def DEFAULT_CONVERSION_SCHEMA : ConversionSchema := {}

/-- `'…'`-quoting as Python f-strings / `repr` produce it in the error
messages of this code base. -/
def pyQuote (s : Str) : Str := '\'' :: (s ++ ['\''])

/-- Decimal digit string of a number (`str(n)` for the `Row {n}` tags). -/
def natDigits (n : Nat) : Str := Nat.toDigits 10 n

/-- All-decimal-digit parse of a non-empty digit string. -/
def digitsToNat : Str → Option Nat
  | [] => none
  | ds =>
    ds.foldl
      (fun acc c =>
        match acc with
        | none => none
        | some n => if c.isDigit then some (n * 10 + (c.toNat - '0'.toNat)) else none)
      (some 0)

/-- Python `int(value)`: optional surrounding whitespace, optional sign,
decimal digits (the underscore-separator and non-ASCII-digit forms Python
also accepts never occur in this code base). -/
def pyParseInt (s : Str) : Option Int :=
  match pyStrip s with
  | '+' :: ds => (digitsToNat ds).map Int.ofNat
  | '-' :: ds => (digitsToNat ds).map (fun n => -(n : Int))
  | ds => (digitsToNat ds).map Int.ofNat

/-- Acceptance test of Python `float(value)` restricted to plain signed
decimal literals (`12`, `-3.5`, `.5`, `2.`); the exotic forms (`1e5`,
`inf`, `nan`) never occur in this code base. -/
def pyFloatLit (s : Str) : Bool :=
  let t := match s with
    | '+' :: r => r
    | '-' :: r => r
    | r => r
  match t.span Char.isDigit with
  | (ds, []) => ds ≠ []
  | (ds, '.' :: fr) => (ds ≠ [] ∨ fr ≠ []) && fr.all Char.isDigit
  | _ => false

/-- The in-order scan of `schema.boolean_pairs` in `_convert_value`'s
`bool` branch. -/
def boolScan (lower_val : Str) : List (Str × Str) → Option Bool
  | [] => none
  | (t, f) :: rest =>
    if lower_val = pyLower t then some true
    else if lower_val = pyLower f then some false
    else boolScan lower_val rest

/-- `str(target_type)` as it appears in the fallback error message
(approximated; no claim inspects these texts). -/
def typeRepr : PyType → Str
  | .int => strL "<class 'int'>"
  | .float => strL "<class 'float'>"
  | .bool => strL "<class 'bool'>"
  | .str => strL "<class 'str'>"
  | .optional t => strL "typing.Optional[" ++ typeRepr t ++ [']']
  | .custom n => strL "<class 'custom" ++ natDigits n ++ strL "'>"

/-- `_convert_value(value, target_type, schema)` of `validation.py`:
custom converter lookup first, then `Optional` unwrapping, then the
built-in `int` / `float` / `bool` / `str` coercions, then the identity
fallback. -/
def _convert_value (value : Str) (target_type : PyType)
    (schema : ConversionSchema) : Except ConvErr PyVal :=
  match schema.custom_converters.lookup target_type with
  | some conv => conv value
  | none =>
    match target_type with
    | .optional inner =>
      if pyStrip value = [] then .ok .vnone
      else _convert_value value inner schema
    | .int =>
      if pyStrip value = [] then .error (.valueError (strL "Empty value for int field"))
      else
        match pyParseInt value with
        | some n => .ok (.vint n)
        | none =>
          .error (.valueError (strL "invalid literal for int() with base 10: " ++ pyQuote value))
    | .float =>
      if pyStrip value = [] then .error (.valueError (strL "Empty value for float field"))
      else
        if pyFloatLit (pyStrip value) then .ok (.vfloat (pyStrip value))
        else .error (.valueError (strL "could not convert string to float: " ++ pyQuote value))
    | .bool =>
      match boolScan (pyStrip (pyLower value)) schema.boolean_pairs with
      | some b => .ok (.vbool b)
      | none => .error (.valueError (strL "Invalid boolean value: " ++ pyQuote value))
    | .str => .ok (.vstr value)
    | .custom _ => .ok (.vstr value)

/-- One field of the target dataclass: name, annotated type, and default
value if any (a field is required iff it has no default). -/
structure FieldDef where
  name : Str
  type : PyType
  default : Option PyVal := none

/-- A constructed dataclass instance: the field values in field order. -/
abbrev Record := List (Str × PyVal)

/-- `_normalize_header(header)`: lowercase, spaces to underscores, strip. -/
def _normalize_header (header : Str) : Str :=
  pyStrip (pyReplace [' '] ['_'] (pyLower header))

/-- The `header_map` of `validate_table`: column index to field name, for
the normalized headers that match a field. -/
def headerMap (headers : List Str) (fieldNames : List Str) : List (Nat × Str) :=
  (headers.map _normalize_header).enum.filterMap fun p =>
    if fieldNames.contains p.2 then some (p.1, p.2) else none

/-- Python dict insert (overwrite in place, else append). -/
def dictInsert (k : Str) (v : PyVal) (d : Record) : Record :=
  if d.any (fun p => p.1 == k) then d.map (fun p => if p.1 = k then (k, v) else p)
  else d ++ [(k, v)]

/-- The `for col_idx, cell_value in enumerate(row)` body of `validate_table`:
convert a cell whose column maps to a field and record the
`Column '…': …` message on failure. -/
def processCell (fields : List FieldDef) (hmap : List (Nat × Str)) (cs : ConversionSchema)
    (acc : Record × List Str) (cell : Nat × Str) : Record × List Str :=
  match hmap.lookup cell.1 with
  | none => acc
  | some field_name =>
    match fields.find? (fun f => f.name == field_name) with
    | none => acc
    | some field_def =>
      match _convert_value cell.2 field_def.type cs with
      | .ok v => (dictInsert field_name v acc.1, acc.2)
      | .error (.valueError m) =>
        (acc.1, acc.2 ++ [strL "Column " ++ pyQuote field_name ++ strL ": " ++ m])
      | .error .otherError =>
        (acc.1, acc.2 ++ [strL "Column " ++ pyQuote field_name ++ strL ": Failed to convert "
          ++ pyQuote cell.2 ++ strL " to " ++ typeRepr field_def.type])

/-- CPython's missing-positional-arguments name list (`'a'`, `'a' and 'b'`,
`'a', 'b', and 'c'`). -/
def joinMissing (names : List Str) : Str :=
  match names with
  | [] => []
  | [a] => a
  | [a, b] => a ++ strL " and " ++ b
  | _ => List.intercalate (strL ", ") names.dropLast ++ strL ", and " ++ names.getLastD []

/-- `str(e)` of the `TypeError` raised by `schema_cls(**row_data)` when
required arguments are missing (modulo the `ClassName.` prefix newer
CPython adds; no claim inspects the exact text). -/
def missingArgsMsg (names : List Str) : Str :=
  strL "__init__() missing " ++ natDigits names.length
    ++ strL " required positional argument" ++ (if names.length = 1 then [] else ['s'])
    ++ strL ": " ++ joinMissing (names.map pyQuote)

/-- `schema_cls(**row_data)`: succeeds iff every field without a default got
a value, and yields the instance's field values in field order. -/
def buildRecord (fields : List FieldDef) (row_data : Record) : Except Str Record :=
  let missing := (fields.filter fun f => f.default.isNone && (row_data.lookup f.name).isNone).map (·.name)
  if missing = [] then
    .ok (fields.filterMap fun f =>
      match row_data.lookup f.name with
      | some v => some (f.name, v)
      | none => f.default.map (fun d => (f.name, d)))
  else .error (missingArgsMsg missing)

/-- `f"Row {row_idx + 1}: "`. -/
def rowTag (i : Nat) : Str := strL "Row " ++ natDigits (i + 1) ++ strL ": "

/-- The `for row_idx, row in enumerate(table.rows)` body of
`validate_table`, threading the `(results, errors)` accumulators. -/
def vtRowStep (fields : List FieldDef) (hmap : List (Nat × Str)) (cs : ConversionSchema)
    (acc : List Record × List Str) (p : Nat × List Str) : List Record × List Str :=
  let cellAcc := p.2.enum.foldl (processCell fields hmap cs) ([], [])
  if cellAcc.2 ≠ [] then
    (acc.1, acc.2 ++ cellAcc.2.map (fun e => rowTag p.1 ++ e))
  else
    match buildRecord fields cellAcc.1 with
    | .ok r => (acc.1 ++ [r], acc.2)
    | .error m => (acc.1, acc.2 ++ [rowTag p.1 ++ m])

/-- `validate_table(table, schema_cls, conversion_schema)` of
`validation.py` (the `is_dataclass` guard is structural here: a
`List FieldDef` is a dataclass shape by construction). -/
def validate_table (table : Table) (fields : List FieldDef)
    (cs : ConversionSchema := DEFAULT_CONVERSION_SCHEMA) :
    Except (List Str) (List Record) :=
  match table.headers with
  | none => .error [strL "Table has no headers"]
  | some hs =>
    if hs = [] then .error [strL "Table has no headers"]
    else
      let hmap := headerMap hs (fields.map (·.name))
      let out := table.rows.enum.foldl (vtRowStep fields hmap cs) ([], [])
      if out.2 ≠ [] then .error out.2 else .ok out.1

/-- The messages a single row contributes to the aggregate failure: one
`Row i: Column 'f': …` message per failing cell, else (when the row
converted cleanly but required fields are missing) the single
`Row i: …missing…` message, else nothing. -/
def rowMessages (fields : List FieldDef) (hmap : List (Nat × Str)) (cs : ConversionSchema)
    (i : Nat) (row : List Str) : List Str :=
  let cellAcc := row.enum.foldl (processCell fields hmap cs) ([], [])
  if cellAcc.2 ≠ [] then cellAcc.2.map (fun e => rowTag i ++ e)
  else
    match buildRecord fields cellAcc.1 with
    | .ok _ => []
    | .error m => [rowTag i ++ m]

/-- The record a cleanly converting row yields (`[]` on a failing row,
which never surfaces: a failing row contributes messages instead). -/
def rowRecord (fields : List FieldDef) (hmap : List (Nat × Str)) (cs : ConversionSchema)
    (row : List Str) : Record :=
  match buildRecord fields (row.enum.foldl (processCell fields hmap cs) ([], [])).1 with
  | .ok r => r
  | .error _ => []

/-! ## Metadata extractor (spec §4.4)

The Metadata Extractor lives in the package's evolved parsing module
(`md_spreadsheet_parser/parsing.py`, imported by the repository's tests and
the `poc/` embedding) which is not present in the tree; `core.py`'s
`parse_table` predates it and attaches only `schema_used`.  The definitions
below are modelled from the spec: a fixed comment-like single-line marker
holding an inline structured-data blob, parsed as a generic key/value
structure and merged under the `visual` metadata key; malformed blobs are
dropped silently. -/

/-- Modelled from the spec: the fixed comment-like marker opening a
single-line metadata annotation (as pinned down by the repository's
tests). -/
def metadataMarker : Str := strL "<!-- md-spreadsheet-metadata: "

/-- Modelled from the spec: the closing text of the annotation line. -/
def metadataClose : Str := strL " -->"

/-- Modelled from the spec: a line (after stripping) that carries a
metadata annotation. -/
def isMetadataLine (line : Str) : Bool :=
  metadataMarker.isPrefixOf (pyStrip line) && metadataClose.isSuffixOf (pyStrip line)

/-- Modelled from the spec: the inline blob between the marker and the
closing text. -/
def metadataBlob (line : Str) : Str :=
  let s := (pyStrip line).drop metadataMarker.length
  s.take (s.length - metadataClose.length)

/-- Worker splitting a blob body on commas at bracket depth zero outside
string literals (tracking depth, in-string and escape state). -/
def splitTLGo : Str → Nat → Bool → Bool → Str → List Str
  | [], _, _, _, acc => [acc.reverse]
  | c :: rest, depth, inStr, esc, acc =>
    if inStr then
      if esc then splitTLGo rest depth true false (c :: acc)
      else if c = '\\' then splitTLGo rest depth true true (c :: acc)
      else if c = '"' then splitTLGo rest depth false false (c :: acc)
      else splitTLGo rest depth true false (c :: acc)
    else if c = '"' then splitTLGo rest depth true false (c :: acc)
    else if c = '[' ∨ c = '{' then splitTLGo rest (depth + 1) false false (c :: acc)
    else if c = ']' ∨ c = '}' then splitTLGo rest (depth - 1) false false (c :: acc)
    else if c = ',' ∧ depth = 0 then acc.reverse :: splitTLGo rest 0 false false []
    else splitTLGo rest depth false false (c :: acc)

/-- Split a blob body into its top-level comma-separated entries. -/
def splitTopLevel (s : Str) : List Str := splitTLGo s 0 false false []

/-- Scan to the closing quote of a key. -/
def spanKey : Str → Option (Str × Str)
  | [] => none
  | '"' :: rest => some ([], rest)
  | c :: rest => (spanKey rest).map (fun p => (c :: p.1, p.2))

/-- Modelled from the spec: one `"key": value` entry of the blob (the value
is kept as its raw text span). -/
def parsePair (chunk : Str) : Option (Str × Str) :=
  match pyStrip chunk with
  | '"' :: rest =>
    match spanKey rest with
    | some (key, after) =>
      match pyStrip after with
      | ':' :: v =>
        let v := pyStrip v
        if v = [] then none else some (key, v)
      | _ => none
    | none => none
  | _ => none

/-- Modelled from the spec: parse the blob's contents as a generic
key/value structure; `none` on a malformed blob. -/
def parseKV (blob : Str) : Option KV :=
  match pyStrip blob with
  | '{' :: rest =>
    match rest.getLast? with
    | some '}' =>
      let inner := pyStrip rest.dropLast
      if inner = [] then some [] else (splitTopLevel inner).mapM parsePair
    | _ => none
  | _ => none

/-- Modelled from the spec: scan the block's lines for the first annotation
whose blob parses; malformed blobs are ignored silently. -/
def extract_metadata (lines : List Str) : Option KV :=
  (lines.filterMap fun l =>
    if isMetadataLine l then parseKV (metadataBlob l) else none).head?

/-- Modelled from the spec: `parse_table` of the evolved parsing module —
the core table state machine over the block's non-annotation lines, plus
the sidecar metadata merged under the `visual` key next to the
`schema_used` record. -/
def parse_table_with_metadata (markdown : Str)
    (schema : ParsingSchema := DEFAULT_SCHEMA) : Table :=
  let lines := splitOnNl markdown
  let base := parseTableLines (lines.filter fun l => !isMetadataLine l) schema
  { base with metadata := { schema_used := some schema, visual := extract_metadata lines } }

/-- A full single-line metadata annotation around a blob. -/
def metadataLine (blob : Str) : Str := metadataMarker ++ blob ++ metadataClose

/-! ## Side conditions used by the round-trip statement -/

/-- A cell (or header) text that survives the generate/parse cycle under a
single-character column separator `c`: free of the separator and of
newlines, already whitespace-trimmed, and non-empty. -/
def GoodCell (c : Char) (w : Str) : Prop :=
  c ∉ w ∧ '\n' ∉ w ∧ pyStrip w = w ∧ w ≠ []

instance (c : Char) (w : Str) : Decidable (GoodCell c w) := by
  unfold GoodCell; infer_instance

/-- A parsing schema under which the generate/parse cycle is faithful: cell
whitespace is stripped, the column separator is a single non-whitespace,
non-backslash character `c`, and the header separator is a single
non-whitespace character `h` distinct from `c`. -/
def GoodSchema (schema : ParsingSchema) (c h : Char) : Prop :=
  schema.column_separator = [c] ∧ schema.header_separator_char = [h] ∧
    schema.strip_whitespace = true ∧ isPySpace c = false ∧ c ≠ '\\' ∧
    isPySpace h = false ∧ h ≠ c

instance (schema : ParsingSchema) (c h : Char) : Decidable (GoodSchema schema c h) := by
  unfold GoodSchema; infer_instance

/-- The lookbehind character after scanning past a chunk `w`: the last
character of `w`, or the previous one if `w` is empty. -/
def prevAfter (prev : Option Char) (w : Str) : Option Char :=
  match w.getLast? with
  | some a => some a
  | none => prev

/-- The text following a column separator when the cells `ws` remain on the
line: each cell is preceded by the generator's padding space and the cells
are joined by `" c "` (the spelling of `" ".join` output after the opening
separator). -/
def restRender (c : Char) : List Str → Str
  | [] => []
  | [w] => ' ' :: w
  | w :: ws => ' ' :: w ++ [' ', c] ++ restRender c ws

/-- The split parts produced from `restRender c ws` when no further
separator follows: every cell space-padded on both sides except the last,
padded only on the left. -/
def tailParts : List Str → List Str
  | [] => [[]]
  | [w] => [' ' :: w]
  | w :: ws => (' ' :: w ++ [' ']) :: tailParts ws

/-- The generator's rendering of one row of cells: the cells joined by
`f" {separator} "`, wrapped in outer separators when the schema requires
them (the `row_str` / `separator_row` / `header_row` expression of
`generate_table_markdown`). -/
def rLine (schema : ParsingSchema) (cells : List Str) : Str :=
  if schema.require_outer_pipes then
    wrapOuter schema (List.intercalate ([' '] ++ schema.column_separator ++ [' ']) cells)
  else List.intercalate ([' '] ++ schema.column_separator ++ [' ']) cells

/-! # Lemmas and claim theorems -/

/-! ## Stripping -/

theorem pyStripLeft_all_space (s : Str) (h : ∀ c ∈ s, isPySpace c = true) :
    pyStripLeft s = [] :=
  List.dropWhile_eq_nil_iff.mpr h

theorem pyStrip_all_space (s : Str) (h : ∀ c ∈ s, isPySpace c = true) :
    pyStrip s = [] := by
  unfold pyStrip
  rw [pyStripLeft_all_space s h]
  rfl

theorem pyStripLeft_eq_self (s : Str)
    (h : ∀ c, s.head? = some c → isPySpace c = false) : pyStripLeft s = s := by
  cases s with
  | nil => rfl
  | cons a t =>
    have := h a rfl
    simp [pyStripLeft, List.dropWhile, this]

theorem pyStripRight_eq_self (s : Str)
    (h : ∀ c, s.getLast? = some c → isPySpace c = false) : pyStripRight s = s := by
  have h2 : pyStripLeft s.reverse = s.reverse := by
    apply pyStripLeft_eq_self
    intro c hc
    exact h c (by rwa [List.head?_reverse] at hc)
  unfold pyStripRight
  unfold pyStripLeft at h2
  rw [h2, List.reverse_reverse]

theorem pyStrip_eq_self (s : Str)
    (hh : ∀ c, s.head? = some c → isPySpace c = false)
    (hl : ∀ c, s.getLast? = some c → isPySpace c = false) : pyStrip s = s := by
  unfold pyStrip
  rw [pyStripLeft_eq_self s hh, pyStripRight_eq_self s hl]

theorem pyStripLeft_head (s : Str) :
    ∀ c, (pyStripLeft s).head? = some c → isPySpace c = false := by
  induction s with
  | nil => intro c hc; simp [pyStripLeft] at hc
  | cons a t ih =>
    intro c hc
    by_cases ha : isPySpace a = true
    · exact ih c (by simpa [pyStripLeft, List.dropWhile, ha] using hc)
    · have ha' : isPySpace a = false := by simpa using ha
      have hac : a = c := by simpa [pyStripLeft, List.dropWhile, ha'] using hc
      rw [← hac]
      exact ha'

theorem pyStripRight_getLast (s : Str) :
    ∀ c, (pyStripRight s).getLast? = some c → isPySpace c = false := by
  intro c hc
  unfold pyStripRight at hc
  rw [List.getLast?_reverse] at hc
  exact pyStripLeft_head s.reverse c hc

theorem dropWhile_isSuffix (p : Char → Bool) (s : Str) : s.dropWhile p <:+ s := by
  induction s with
  | nil => exact List.suffix_refl []
  | cons a t ih =>
    by_cases ha : p a = true
    · simp only [List.dropWhile, ha]
      exact ih.trans (List.suffix_cons a t)
    · simp only [List.dropWhile, ha]
      exact List.suffix_refl _

theorem pyStripRight_isPrefix (s : Str) : pyStripRight s <+: s := by
  obtain ⟨t, ht⟩ := dropWhile_isSuffix isPySpace s.reverse
  refine ⟨t.reverse, ?_⟩
  unfold pyStripRight
  rw [← List.reverse_append, ht, List.reverse_reverse]

theorem pyStripRight_head (s : Str) :
    ∀ c, (pyStripRight s).head? = some c → s.head? = some c := by
  intro c hc
  obtain ⟨t, ht⟩ := pyStripRight_isPrefix s
  rw [← ht]
  cases hps : pyStripRight s with
  | nil => rw [hps] at hc; simp at hc
  | cons a u =>
    rw [hps] at hc
    simp at hc
    simp [hps, hc]

theorem pyStrip_head (s : Str) :
    ∀ c, (pyStrip s).head? = some c → isPySpace c = false := by
  intro c hc
  exact pyStripLeft_head s c (pyStripRight_head (pyStripLeft s) c hc)

theorem pyStrip_getLast (s : Str) :
    ∀ c, (pyStrip s).getLast? = some c → isPySpace c = false :=
  fun c hc => pyStripRight_getLast (pyStripLeft s) c hc

theorem pyStrip_idem (s : Str) : pyStrip (pyStrip s) = pyStrip s :=
  pyStrip_eq_self (pyStrip s) (pyStrip_head s) (pyStrip_getLast s)

/-- A trimmed, non-empty string starts with a non-space character. -/
theorem head_not_space_of_stripped (w : Str) (hw : pyStrip w = w) :
    ∀ c, w.head? = some c → isPySpace c = false := by
  intro c hc
  exact pyStrip_head w c (by rwa [hw])

theorem getLast_not_space_of_stripped (w : Str) (hw : pyStrip w = w) :
    ∀ c, w.getLast? = some c → isPySpace c = false := by
  intro c hc
  exact pyStrip_getLast w c (by rwa [hw])

/-! ## The `parse_table` loop -/

theorem parse_row_strip (l : Str) (schema : ParsingSchema) :
    parse_row (pyStrip l) schema = parse_row l schema := by
  unfold parse_row
  rw [pyStrip_idem]

theorem parse_row_eq_none_iff (l : Str) (schema : ParsingSchema) :
    parse_row l schema = none ↔ pyStrip l = [] := by
  unfold parse_row
  by_cases h : pyStrip l = [] <;> simp [h]

theorem ptStep_of_blank (schema : ParsingSchema) (st : PTState) (line : Str)
    (h : pyStrip line = []) : ptStep schema st line = st := by
  simp [ptStep, h]

theorem ptStep_parsed (schema : ParsingSchema) (st : PTState) (l : Str)
    (pr : List Str) (hb : pyStrip l ≠ [])
    (hpr : parse_row (pyStrip l) schema = some pr) :
    ptStep schema st l =
      match st.headers, st.potential with
      | none, some ph =>
        if is_separator_row pr schema then ⟨some ph, st.rows, none⟩
        else ⟨none, st.rows ++ [ph], some pr⟩
      | none, none => { st with potential := some pr }
      | some _, _ => { st with rows := st.rows ++ [pr] } := by
  unfold ptStep
  simp only [if_neg hb, hpr]

theorem ptStep_headers_some (schema : ParsingSchema) (st : PTState) (line : Str)
    (hs : List Str) (h : st.headers = some hs) :
    (ptStep schema st line).headers = some hs := by
  by_cases hb : pyStrip line = []
  · rw [ptStep_of_blank schema st line hb]; exact h
  · obtain ⟨pr, hpr⟩ : ∃ pr, parse_row (pyStrip line) schema = some pr := by
      cases hp : parse_row (pyStrip line) schema with
      | none =>
        rw [parse_row_strip] at hp
        exact absurd ((parse_row_eq_none_iff line schema).mp hp) hb
      | some pr => exact ⟨pr, rfl⟩
    rw [ptStep_parsed schema st line pr hb hpr, h]

theorem ptFold_headers_some (schema : ParsingSchema) (lines : List Str) :
    ∀ (st : PTState) (hs : List Str), st.headers = some hs →
      (lines.foldl (ptStep schema) st).headers = some hs := by
  induction lines with
  | nil => intro st hs h; exact h
  | cons l rest ih =>
    intro st hs h
    rw [List.foldl_cons]
    exact ih _ hs (ptStep_headers_some schema st l hs h)

theorem ptFold_headerless (schema : ParsingSchema) (lines : List Str) :
    ∀ (rs : List (List Str)) (pot : Option (List Str)),
      (lines.foldl (ptStep schema) ⟨none, rs, pot⟩).headers = none →
      finalizeRows (lines.foldl (ptStep schema) ⟨none, rs, pot⟩) =
        rs ++ (match pot with | some p => [p] | none => [])
           ++ lines.filterMap (fun l => parse_row l schema) := by
  induction lines with
  | nil =>
    intro rs pot _
    simp [finalizeRows]
  | cons l rest ih =>
    intro rs pot hnone
    rw [List.foldl_cons] at hnone ⊢
    by_cases hb : pyStrip l = []
    · have hstep : ptStep schema ⟨none, rs, pot⟩ l = ⟨none, rs, pot⟩ :=
        ptStep_of_blank schema _ l hb
      rw [hstep] at hnone ⊢
      have hpr : parse_row l schema = none := (parse_row_eq_none_iff l schema).mpr hb
      simp only [List.filterMap_cons, hpr]
      exact ih rs pot hnone
    · obtain ⟨pr, hpr⟩ : ∃ pr, parse_row (pyStrip l) schema = some pr := by
        cases hp : parse_row (pyStrip l) schema with
        | none =>
          rw [parse_row_strip] at hp
          exact absurd ((parse_row_eq_none_iff l schema).mp hp) hb
        | some pr => exact ⟨pr, rfl⟩
      have hpr' : parse_row l schema = some pr := by rw [← parse_row_strip]; exact hpr
      simp only [List.filterMap_cons, hpr']
      cases pot with
      | none =>
        have hstep : ptStep schema ⟨none, rs, none⟩ l = ⟨none, rs, some pr⟩ := by
          rw [ptStep_parsed schema ⟨none, rs, none⟩ l pr hb hpr]
        rw [hstep] at hnone ⊢
        rw [ih rs (some pr) hnone]
        simp
      | some q =>
        by_cases hsep : is_separator_row pr schema = true
        · have hstep : ptStep schema ⟨none, rs, some q⟩ l = ⟨some q, rs, none⟩ := by
            rw [ptStep_parsed schema ⟨none, rs, some q⟩ l pr hb hpr]
            simp only [hsep, if_true]
          rw [hstep] at hnone
          have hsome := ptFold_headers_some schema rest ⟨some q, rs, none⟩ q rfl
          rw [hnone] at hsome
          exact absurd hsome (by simp)
        · have hsep' : is_separator_row pr schema = false := by simpa using hsep
          have hstep : ptStep schema ⟨none, rs, some q⟩ l = ⟨none, rs ++ [q], some pr⟩ := by
            rw [ptStep_parsed schema ⟨none, rs, some q⟩ l pr hb hpr]
            simp only [hsep', Bool.false_eq_true, if_false]
          rw [hstep] at hnone ⊢
          rw [ih (rs ++ [q]) (some pr) hnone]
          simp

theorem parse_table_headers (md : Str) (schema : ParsingSchema) :
    (parse_table md schema).headers =
      ((splitOnNl (pyStrip md)).foldl (ptStep schema) ⟨none, [], none⟩).headers := rfl

theorem parse_table_rows_of_headers (md : Str) (schema : ParsingSchema) (hs : List Str)
    (hh : (parse_table md schema).headers = some hs) (hne : hs ≠ []) :
    (parse_table md schema).rows =
      normalizeRows hs.length
        (finalizeRows ((splitOnNl (pyStrip md)).foldl (ptStep schema) ⟨none, [], none⟩)) := by
  have hh' : ((splitOnNl (pyStrip md)).foldl (ptStep schema) ⟨none, [], none⟩).headers
      = some hs := hh
  show (parseTableLines (splitOnNl (pyStrip md)) schema).rows = _
  unfold parseTableLines
  simp only [hh', hne]
  simp
  intro h'
  exact absurd h' hne

theorem parse_table_rows_headerless (md : Str) (schema : ParsingSchema)
    (hh : (parse_table md schema).headers = none) :
    (parse_table md schema).rows =
      finalizeRows ((splitOnNl (pyStrip md)).foldl (ptStep schema) ⟨none, [], none⟩) := by
  have hh' : ((splitOnNl (pyStrip md)).foldl (ptStep schema) ⟨none, [], none⟩).headers
      = none := hh
  show (parseTableLines (splitOnNl (pyStrip md)) schema).rows = _
  unfold parseTableLines
  simp only [hh']

theorem normalizeRows_length (n : Nat) (rows : List (List Str)) :
    ∀ r ∈ normalizeRows n rows, r.length = n := by
  intro r hr
  unfold normalizeRows at hr
  rcases List.mem_map.mp hr with ⟨row, _, hrow⟩
  rw [← hrow]
  split_ifs with h1 h2
  · simp only [List.length_append, List.length_replicate]
    omega
  · simp only [List.length_take]
    omega
  · omega

/-! ## Claim C10 -/

/-- C10: for every input consisting only of whitespace (including the empty
string) and every schema, `parse_table` returns a table with no headers and
an empty row list. -/
theorem c10_whitespace_only_input (markdown : Str) (schema : ParsingSchema)
    (h : ∀ c ∈ markdown, isPySpace c = true) :
    (parse_table markdown schema).headers = none ∧
      (parse_table markdown schema).rows = [] := by
  have h1 : parse_table markdown schema = parseTableLines [[]] schema := by
    unfold parse_table
    rw [pyStrip_all_space markdown h]
    rfl
  rw [h1]
  exact ⟨rfl, rfl⟩

theorem c10_witness :
    (∀ c ∈ strL " \t\n  ", isPySpace c = true) ∧
      (parse_table (strL " \t\n  ") DEFAULT_SCHEMA).headers = none ∧
      (parse_table (strL " \t\n  ") DEFAULT_SCHEMA).rows = [] :=
  ⟨by decide, c10_whitespace_only_input (strL " \t\n  ") DEFAULT_SCHEMA (by decide)⟩

/-! ## Claim C7 -/

/-- C7: contrary to the claim (and to the function's own comment "It must
have at least one hyphen"), `is_separator_row` returns `True` on a row with
zero cells, for every schema: the all-cells loop is vacuous. -/
theorem c7_empty_row_separator_eval (schema : ParsingSchema) :
    is_separator_row [] schema = true := rfl

/-! ## Claim C4 -/

/-- C4 counterexample: on `"|\n|---|\n| 1 | 2 |"` the default-schema parse
commits an empty header list (`headers == []`, which is falsy), the
normalization pass is skipped, and a 2-cell row survives next to 0
headers. -/
theorem c4_counterexample :
    ∃ hs, (parse_table (strL "|\n|---|\n| 1 | 2 |") DEFAULT_SCHEMA).headers = some hs ∧
      ¬ (∀ r ∈ (parse_table (strL "|\n|---|\n| 1 | 2 |") DEFAULT_SCHEMA).rows,
          r.length = hs.length) :=
  ⟨[], by decide, by decide⟩

/-- C4 (amended: the normalization invariant holds whenever the committed
header list is non-empty; a table whose headers are the empty list skips
normalization): every row of a parsed table with non-empty headers has
exactly the header count of cells, short rows being right-padded with empty
cells (`["x"]` against 3 headers becomes `["x","",""]`) and long rows
right-truncated. -/
theorem c4_row_length_normalization :
    (∀ (markdown : Str) (schema : ParsingSchema) (hs : List Str),
        (parse_table markdown schema).headers = some hs → hs ≠ [] →
        ∀ r ∈ (parse_table markdown schema).rows, r.length = hs.length) ∧
    (parse_table (strL "| A | B | C |\n|---|---|---|\n| x |") DEFAULT_SCHEMA).rows
      = [[strL "x", [], []]] ∧
    (parse_table (strL "| A |\n|---|\n| x | y |") DEFAULT_SCHEMA).rows = [[strL "x"]] := by
  refine ⟨?_, by decide, by decide⟩
  intro md schema hs hh hne r hr
  rw [parse_table_rows_of_headers md schema hs hh hne] at hr
  exact normalizeRows_length hs.length _ r hr

theorem c4_witness :
    (parse_table (strL "| A | B | C |\n|---|---|---|\n| x |\n| p | q | r | s |") DEFAULT_SCHEMA).headers
        = some [strL "A", strL "B", strL "C"] ∧
      ([strL "A", strL "B", strL "C"] : List Str) ≠ [] ∧
      ∀ r ∈ (parse_table (strL "| A | B | C |\n|---|---|---|\n| x |\n| p | q | r | s |") DEFAULT_SCHEMA).rows,
        r.length = ([strL "A", strL "B", strL "C"] : List Str).length :=
  ⟨by decide, by decide,
    c4_row_length_normalization.1 _ DEFAULT_SCHEMA _ (by decide) (by decide)⟩

/-! ## Claim C2 -/

/-- C2: the first row is committed as headers exactly when the next
non-empty row is a separator row (`"| A |\n|---|\n| 1 |"` gives headers
`["A"]` and rows `[["1"]]`; `"| 1 |\n| 2 |"` gives a headerless table with
rows `[["1"],["2"]]`); and whenever no separator row ever confirms a
buffered potential header, the table ends headerless with every parsed row
— the flushed buffer included — present as an ordinary data row, in
order. -/
theorem c2_header_disambiguation :
    ((parse_table (strL "| A |\n|---|\n| 1 |") DEFAULT_SCHEMA).headers = some [strL "A"] ∧
      (parse_table (strL "| A |\n|---|\n| 1 |") DEFAULT_SCHEMA).rows = [[strL "1"]]) ∧
    ((parse_table (strL "| 1 |\n| 2 |") DEFAULT_SCHEMA).headers = none ∧
      (parse_table (strL "| 1 |\n| 2 |") DEFAULT_SCHEMA).rows = [[strL "1"], [strL "2"]]) ∧
    (∀ (markdown : Str) (schema : ParsingSchema),
      (parse_table markdown schema).headers = none →
      (parse_table markdown schema).rows =
        (splitOnNl (pyStrip markdown)).filterMap (fun l => parse_row l schema)) := by
  refine ⟨⟨by decide, by decide⟩, ⟨by decide, by decide⟩, ?_⟩
  intro md schema hh
  rw [parse_table_rows_headerless md schema hh]
  have := ptFold_headerless schema (splitOnNl (pyStrip md)) [] none hh
  rw [this]
  simp

theorem c2_witness :
    (parse_table (strL "| 1 |\n| 2 |") DEFAULT_SCHEMA).headers = none ∧
      (parse_table (strL "| 1 |\n| 2 |") DEFAULT_SCHEMA).rows =
        (splitOnNl (pyStrip (strL "| 1 |\n| 2 |"))).filterMap
          (fun l => parse_row l DEFAULT_SCHEMA) :=
  ⟨by decide, c2_header_disambiguation.2.2 (strL "| 1 |\n| 2 |") DEFAULT_SCHEMA (by decide)⟩

/-! ## The escaped split -/

theorem splitEscGo_ne_nil (sep : Str) (fuel : Nat) (s : Str) (prev : Option Char) :
    splitEscGo sep fuel s prev ≠ [] := by
  match fuel, s with
  | fuel, [] => simp [splitEscGo]
  | 0, a :: rest => simp [splitEscGo]
  | fuel + 1, a :: rest =>
    unfold splitEscGo
    split
    · simp
    · split <;> simp

theorem splitEscGo_cons_of_ne (c a : Char) (fuel : Nat) (rest : Str) (prev : Option Char)
    (ha : a ≠ c) (r : Str) (rs : List Str)
    (hr : splitEscGo [c] fuel rest (some a) = r :: rs) :
    splitEscGo [c] (fuel + 1) (a :: rest) prev = (a :: r) :: rs := by
  have hcond : ¬(([c].isPrefixOf (a :: rest) : Bool) = true ∧ prev ≠ some '\\') := by
    intro hcon
    have h1 : c = a := by simpa [List.isPrefixOf] using hcon.1
    exact ha h1.symm
  unfold splitEscGo
  rw [if_neg hcond, hr]

theorem splitEscGo_sep (c : Char) (fuel : Nat) (rest : Str) (prev : Option Char)
    (hprev : prev ≠ some '\\') :
    splitEscGo [c] (fuel + 1) (c :: rest) prev =
      [] :: splitEscGo [c] fuel rest (some c) := by
  conv_lhs => rw [splitEscGo]
  rw [if_pos ⟨by simp [List.isPrefixOf], hprev⟩]
  simp

theorem splitEscGo_no_sep (c : Char) (fuel : Nat) (s : Str) (prev : Option Char)
    (hs : c ∉ s) : splitEscGo [c] fuel s prev = [s] := by
  induction fuel generalizing s prev with
  | zero => cases s <;> simp [splitEscGo]
  | succ fuel ih =>
    cases s with
    | nil => simp [splitEscGo]
    | cons a rest =>
      have ha : a ≠ c := fun h => hs (h ▸ List.mem_cons_self a rest)
      have hrest : c ∉ rest := fun h => hs (List.mem_cons_of_mem a h)
      exact splitEscGo_cons_of_ne c a fuel rest prev ha rest [] (ih rest (some a) hrest)

theorem prevAfter_cons (prev : Option Char) (a : Char) (w : Str) :
    prevAfter prev (a :: w) = prevAfter (some a) w := by
  cases w with
  | nil => rfl
  | cons b t =>
    simp only [prevAfter, List.getLast?_cons_cons]
    cases hx : (b :: t).getLast? with
    | none => simp at hx
    | some y => rfl

theorem splitEscGo_chunk (c : Char) (w : Str) :
    ∀ (s : Str) (fuel : Nat) (prev : Option Char), c ∉ w → w.length ≤ fuel →
      ∀ (r : Str) (rs : List Str),
        splitEscGo [c] (fuel - w.length) s (prevAfter prev w) = r :: rs →
        splitEscGo [c] fuel (w ++ s) prev = (w ++ r) :: rs := by
  induction w with
  | nil =>
    intro s fuel prev _ _ r rs hr
    simpa [prevAfter] using hr
  | cons a w' ih =>
    intro s fuel prev hw hlen r rs hr
    have ha : a ≠ c := fun h => hw (h ▸ List.mem_cons_self a w')
    have hw' : c ∉ w' := fun h => hw (List.mem_cons_of_mem a h)
    obtain ⟨f, rfl⟩ : ∃ f, fuel = f + 1 := by
      cases fuel with
      | zero => simp at hlen
      | succ f => exact ⟨f, rfl⟩
    have hlen' : w'.length ≤ f := by simpa using hlen
    have hr' : splitEscGo [c] (f - w'.length) s (prevAfter (some a) w') = r :: rs := by
      rw [← prevAfter_cons prev a w']
      have hlen2 : f + 1 - (a :: w').length = f - w'.length := by
        simp only [List.length_cons]
        omega
      rw [← hlen2]
      exact hr
    have := ih s f (some a) hw' hlen' r rs hr'
    rw [List.cons_append]
    exact splitEscGo_cons_of_ne c a f (w' ++ s) prev ha (w' ++ r) rs this

/-! ## `str.replace` on escape patterns -/

theorem pyReplaceGo_no_second_char (c : Char) (rep : Str) :
    ∀ (fuel : Nat) (s : Str), c ∉ s → pyReplaceGo ['\\', c] rep fuel s = s := by
  intro fuel
  induction fuel with
  | zero => intro s _; cases s <;> rfl
  | succ fuel ih =>
    intro s hs
    cases s with
    | nil => rfl
    | cons a rest =>
      have hcond : ¬(['\\', c].isPrefixOf (a :: rest) = true) := by
        intro hcon
        rw [List.isPrefixOf_iff_prefix] at hcon
        obtain ⟨t, ht⟩ := hcon
        have : c ∈ a :: rest := by rw [← ht]; simp
        exact hs this
      unfold pyReplaceGo
      rw [if_neg hcond]
      have hrest : c ∉ rest := fun h => hs (List.mem_cons_of_mem a h)
      rw [ih rest hrest]

theorem pyReplace_no_second_char (c : Char) (rep : Str) (s : Str) (hs : c ∉ s) :
    pyReplace ['\\', c] rep s = s := by
  unfold pyReplace
  rw [if_neg (by simp), pyReplaceGo_no_second_char c rep s.length s hs]

theorem pyReplaceGo_skip (pat' rep : Str) (w : Str) :
    ∀ (s : Str) (fuel : Nat), '\\' ∉ w → w.length ≤ fuel →
      pyReplaceGo ('\\' :: pat') rep fuel (w ++ s) =
        w ++ pyReplaceGo ('\\' :: pat') rep (fuel - w.length) s := by
  induction w with
  | nil => intro s fuel _ _; simp
  | cons a w' ih =>
    intro s fuel hw hlen
    obtain ⟨f, rfl⟩ : ∃ f, fuel = f + 1 := by
      cases fuel with
      | zero => simp at hlen
      | succ f => exact ⟨f, rfl⟩
    have ha : a ≠ '\\' := fun h => hw (h ▸ List.mem_cons_self a w')
    have hcond : ¬(('\\' :: pat').isPrefixOf (a :: (w' ++ s)) = true) := by
      intro hcon
      rw [List.isPrefixOf_iff_prefix] at hcon
      obtain ⟨t, ht⟩ := hcon
      have := (List.cons.injEq _ _ _ _).mp (by simpa using ht.symm)
      exact ha this.1
    rw [List.cons_append]
    conv_lhs => rw [pyReplaceGo]
    rw [if_neg hcond]
    have hw' : '\\' ∉ w' := fun h => hw (List.mem_cons_of_mem a h)
    have hlen' : w'.length ≤ f := by simpa using hlen
    rw [ih s f hw' hlen']
    have harith : f + 1 - (a :: w').length = f - w'.length := by
      simp only [List.length_cons]
      omega
    rw [harith, List.cons_append]

theorem pyReplaceGo_head_match (pat rep : Str) (s : Str) (fuel : Nat) (hpat : pat ≠ []) :
    pyReplaceGo pat rep (fuel + 1) (pat ++ s) = rep ++ pyReplaceGo pat rep fuel s := by
  cases pat with
  | nil => exact absurd rfl hpat
  | cons p pat' =>
    rw [List.cons_append]
    conv_lhs => rw [pyReplaceGo]
    rw [if_pos (by rw [← List.cons_append]; exact List.isPrefixOf_iff_prefix.mpr ⟨s, rfl⟩)]
    congr 1
    rw [← List.cons_append, List.drop_left' (by simp)]

/-! ## Stripping padded cells -/

theorem dropWhile_append_all (p : Char → Bool) (a : Str) (t : Str)
    (ha : ∀ x ∈ a, p x = true) : List.dropWhile p (a ++ t) = List.dropWhile p t := by
  induction a with
  | nil => rfl
  | cons x a' ih =>
    rw [List.cons_append, List.dropWhile_cons]
    rw [ha x (List.mem_cons_self x a')]
    simp only [if_true]
    exact ih (fun y hy => ha y (List.mem_cons_of_mem x hy))

theorem pyStrip_pad (w : Str) (hw : pyStrip w = w) (a b : Str)
    (ha : ∀ x ∈ a, isPySpace x = true) (hb : ∀ x ∈ b, isPySpace x = true) :
    pyStrip (a ++ w ++ b) = w := by
  cases w with
  | nil =>
    simp only [List.append_nil, List.nil_append]
    exact pyStrip_all_space (a ++ b) (by
      intro x hx
      rcases List.mem_append.mp hx with h | h
      · exact ha x h
      · exact hb x h)
  | cons x w' =>
    have hhead : isPySpace x = false := head_not_space_of_stripped (x :: w') hw x rfl
    have h1 : pyStripLeft (a ++ (x :: w') ++ b) = (x :: w') ++ b := by
      unfold pyStripLeft
      rw [List.append_assoc, dropWhile_append_all isPySpace a ((x :: w') ++ b) ha]
      rw [List.cons_append, List.dropWhile_cons, hhead]
      simp
    unfold pyStrip
    rw [h1]
    unfold pyStripRight
    rw [List.reverse_append, dropWhile_append_all isPySpace b.reverse (x :: w').reverse
      (by intro y hy; exact hb y (List.mem_reverse.mp hy))]
    have h2 : pyStripRight (x :: w') = x :: w' :=
      pyStripRight_eq_self (x :: w') (getLast_not_space_of_stripped (x :: w') hw)
    unfold pyStripRight at h2
    rw [h2]

/-! ## `clean_cell` on round-trippable cells -/

theorem clean_cell_id (schema : ParsingSchema) (c : Char)
    (hcs : schema.column_separator = [c]) (hst : schema.strip_whitespace = true)
    (w : Str) (hw : c ∉ w) (hws : pyStrip w = w) : clean_cell w schema = w := by
  unfold clean_cell
  rw [hst, hcs]
  simp only [if_true, hws]
  split
  · exact pyReplace_no_second_char c [c] w hw
  · rfl

theorem clean_cell_pad (schema : ParsingSchema) (c : Char)
    (hcs : schema.column_separator = [c]) (hst : schema.strip_whitespace = true)
    (w : Str) (hw : c ∉ w) (hws : pyStrip w = w) (a b : Str)
    (ha : ∀ x ∈ a, isPySpace x = true) (hb : ∀ x ∈ b, isPySpace x = true) :
    clean_cell (a ++ w ++ b) schema = w := by
  unfold clean_cell
  rw [hst, hcs]
  simp only [if_true, pyStrip_pad w hws a b ha hb]
  split
  · exact pyReplace_no_second_char c [c] w hw
  · rfl

/-! ## Claim C9 -/

theorem containsSub_singleton (c : Char) (s : Str) : containsSub [c] s = true ↔ c ∈ s := by
  induction s with
  | nil => simp [containsSub, List.isPrefixOf]
  | cons a rest ih =>
    unfold containsSub
    rw [Bool.or_eq_true]
    have hpre : ([c].isPrefixOf (a :: rest) = true) ↔ c = a := by
      constructor
      · intro h
        obtain ⟨t, ht⟩ := List.isPrefixOf_iff_prefix.mp h
        exact ((List.cons.injEq _ _ _ _).mp (by simpa using ht.symm)).1.symm
      · intro h
        subst h
        exact List.isPrefixOf_iff_prefix.mpr ⟨rest, rfl⟩
    rw [hpre, ih, List.mem_cons]

theorem splitEsc_escaped_single (x y : Str) (hx : '|' ∉ x) (hy : '|' ∉ y) :
    splitEsc ['|'] (x ++ '\\' :: '|' :: y) = [x ++ '\\' :: '|' :: y] := by
  unfold splitEsc
  rw [if_neg (by simp)]
  have h3 : splitEscGo ['|'] y.length y (some '|') = [y] :=
    splitEscGo_no_sep '|' y.length y (some '|') hy
  have h2 : splitEscGo ['|'] (y.length + 1) ('|' :: y) (some '\\') = ['|' :: y] := by
    conv_lhs => rw [splitEscGo]
    rw [if_neg (by intro hcon; exact hcon.2 rfl)]
    rw [h3]
  have h1 : splitEscGo ['|'] (y.length + 2) ('\\' :: '|' :: y) (prevAfter none x)
      = ['\\' :: '|' :: y] :=
    splitEscGo_cons_of_ne '|' '\\' (y.length + 1) ('|' :: y) (prevAfter none x)
      (by decide) ('|' :: y) [] h2
  have hlen : (x ++ '\\' :: '|' :: y).length = x.length + (y.length + 2) := by
    simp only [List.length_append, List.length_cons]
  rw [hlen]
  have harith : x.length + (y.length + 2) - x.length = y.length + 2 := by omega
  exact splitEscGo_chunk '|' x ('\\' :: '|' :: y) (x.length + (y.length + 2)) none hx
    (by omega) ('\\' :: '|' :: y) [] (by rw [harith]; exact h1)

theorem clean_cell_escape (schema : ParsingSchema) (c : Char)
    (hcs : schema.column_separator = [c]) (hst : schema.strip_whitespace = true)
    (x y : Str) (hbx : '\\' ∉ x) (hby : '\\' ∉ y) (hcy : c ∉ y)
    (hstrip : pyStrip (x ++ '\\' :: c :: y) = x ++ '\\' :: c :: y) :
    clean_cell (x ++ '\\' :: c :: y) schema = x ++ c :: y := by
  unfold clean_cell
  rw [hst]
  simp only [if_true, hstrip]
  have hmem : containsSub ['\\'] (x ++ '\\' :: c :: y) = true :=
    (containsSub_singleton '\\' _).mpr (by simp)
  rw [if_pos hmem, hcs]
  show pyReplace ['\\', c] [c] (x ++ '\\' :: c :: y) = x ++ c :: y
  unfold pyReplace
  rw [if_neg (by simp)]
  have hlen : (x ++ '\\' :: c :: y).length = x.length + (y.length + 2) := by
    simp only [List.length_append, List.length_cons]
  rw [hlen]
  rw [pyReplaceGo_skip [c] [c] x ('\\' :: c :: y) (x.length + (y.length + 2)) hbx (by omega)]
  have harith : x.length + (y.length + 2) - x.length = y.length + 1 + 1 := by omega
  rw [harith]
  have hform : ('\\' :: c :: y) = ['\\', c] ++ y := rfl
  rw [hform, pyReplaceGo_head_match ['\\', c] [c] y (y.length + 1) (by simp)]
  rw [pyReplaceGo_no_second_char c [c] (y.length + 1) y hcy]
  rfl

/-- C9: under the default schema a backslash-escaped separator does not
split (`"| a\|b | c |"` tokenizes to `["a|b", "c"]` and `clean_cell`
unescapes `\|` to `|`); in general, a line built as `x \| y` with no other
separators or backslashes parses as the single cell `x | y`. -/
theorem c9_escape_handling :
    parse_row (strL "| a\\|b | c |") DEFAULT_SCHEMA = some [strL "a|b", strL "c"] ∧
    clean_cell (strL "a\\|b") DEFAULT_SCHEMA = strL "a|b" ∧
    (∀ x y : Str, '|' ∉ x → '|' ∉ y → '\\' ∉ x → '\\' ∉ y →
      pyStrip (x ++ '\\' :: '|' :: y) = x ++ '\\' :: '|' :: y →
      parse_row (x ++ '\\' :: '|' :: y) DEFAULT_SCHEMA = some [x ++ '|' :: y]) := by
  refine ⟨by decide, by decide, ?_⟩
  intro x y hx hy hbx hby hstrip
  unfold parse_row
  rw [hstrip]
  rw [if_neg (by simp)]
  have hsep : DEFAULT_SCHEMA.column_separator = ['|'] := rfl
  rw [hsep, splitEsc_escaped_single x y hx hy]
  simp only [List.length_cons, List.length_nil, gt_iff_lt, Nat.lt_irrefl, if_false]
  rw [List.map_singleton]
  rw [clean_cell_escape DEFAULT_SCHEMA '|' rfl rfl x y hbx hby hy hstrip]

theorem c9_witness :
    ('|' ∉ strL "a") ∧ ('|' ∉ strL "b") ∧ ('\\' ∉ strL "a") ∧ ('\\' ∉ strL "b") ∧
      pyStrip (strL "a" ++ '\\' :: '|' :: strL "b") = strL "a" ++ '\\' :: '|' :: strL "b" ∧
      parse_row (strL "a" ++ '\\' :: '|' :: strL "b") DEFAULT_SCHEMA
        = some [strL "a" ++ '|' :: strL "b"] :=
  ⟨by decide, by decide, by decide, by decide, by decide,
    c9_escape_handling.2.2 (strL "a") (strL "b") (by decide) (by decide) (by decide)
      (by decide) (by decide)⟩

/-! ## Claim C8 -/

/-- C8: boolean coercion compares the trimmed, case-folded cell against the
configured literal pairs in order: under the default configuration `"Yes"`
converts to `true` and `"0"` to `false`; under a configuration restricted
to the single pair `(hai, iie)`, the cell `"Yes"` makes `validate_table`
fail with a message naming the unrecognized literal and the field. -/
theorem c8_boolean_coercion :
    _convert_value (strL "Yes") PyType.bool DEFAULT_CONVERSION_SCHEMA
      = Except.ok (PyVal.vbool true) ∧
    _convert_value (strL "0") PyType.bool DEFAULT_CONVERSION_SCHEMA
      = Except.ok (PyVal.vbool false) ∧
    validate_table
        (parse_table (strL "\n| Name | Is Active | Score |\n| --- | --- | --- |\n| Alice | Yes | 10 |\n") DEFAULT_SCHEMA)
        [⟨strL "name", PyType.str, none⟩, ⟨strL "is_active", PyType.bool, none⟩,
         ⟨strL "score", PyType.int, none⟩,
         ⟨strL "price", PyType.optional (PyType.custom 0), some PyVal.vnone⟩]
        { boolean_pairs := [(strL "hai", strL "iie")] }
      = Except.error [strL "Row 1: Column 'is_active': Invalid boolean value: 'Yes'"] ∧
    containsSub (strL "Yes") (strL "Row 1: Column 'is_active': Invalid boolean value: 'Yes'")
      = true ∧
    containsSub (strL "is_active") (strL "Row 1: Column 'is_active': Invalid boolean value: 'Yes'")
      = true := by
  refine ⟨by decide, by decide, ?_, by decide, by decide⟩
  decide

/-! ## Claim C5 -/

theorem vtRowStep_eq (fields : List FieldDef) (hmap : List (Nat × Str))
    (cs : ConversionSchema) (acc : List Record × List Str) (p : Nat × List Str) :
    vtRowStep fields hmap cs acc p =
      (acc.1 ++ (if rowMessages fields hmap cs p.1 p.2 = []
          then [rowRecord fields hmap cs p.2] else []),
       acc.2 ++ rowMessages fields hmap cs p.1 p.2) := by
  unfold vtRowStep rowMessages rowRecord
  by_cases hc : (p.2.enum.foldl (processCell fields hmap cs) ([], [])).2 = []
  · simp only [hc, ne_eq, not_true_eq_false, if_false, List.map_nil]
    cases hb : buildRecord fields (p.2.enum.foldl (processCell fields hmap cs) ([], [])).1 with
    | ok r => simp
    | error m => simp
  · simp only [hc, ne_eq, not_false_eq_true, if_true]
    have hmapne : (((p.2.enum.foldl (processCell fields hmap cs) ([], [])).2).map
        (fun e => rowTag p.1 ++ e)) ≠ [] := by
      simpa using hc
    simp [hmapne, hc]

theorem vtFold (fields : List FieldDef) (hmap : List (Nat × Str)) (cs : ConversionSchema)
    (l : List (Nat × List Str)) :
    ∀ (accR : List Record) (accE : List Str),
      l.foldl (vtRowStep fields hmap cs) (accR, accE) =
        (accR ++ (l.filter (fun p => rowMessages fields hmap cs p.1 p.2 = [])).map
            (fun p => rowRecord fields hmap cs p.2),
         accE ++ (l.map (fun p => rowMessages fields hmap cs p.1 p.2)).join) := by
  induction l with
  | nil => intro accR accE; simp
  | cons p rest ih =>
    intro accR accE
    rw [List.foldl_cons, vtRowStep_eq]
    rw [ih]
    by_cases hm : rowMessages fields hmap cs p.1 p.2 = []
    · simp [List.filter_cons, hm, List.append_assoc]
    · simp [List.filter_cons, hm, List.append_assoc]

/-- C5: with a (non-empty-)headed table, `validate_table` fails iff some row
contributes an error message (a per-cell conversion failure or a
missing-required-field failure); the failure is only assembled after every
row has been scanned and aggregates, in row order, each row's messages (one
per failing (row, column) cell, or the single missing-arguments message of
a row whose conversions all succeeded); on success the converted records
are returned, one per row, in order. -/
theorem c5_full_table_validation :
    ∀ (table : Table) (fields : List FieldDef) (cs : ConversionSchema) (hs : List Str),
      table.headers = some hs → hs ≠ [] →
      (((∃ errs, validate_table table fields cs = .error errs) ↔
        ∃ p ∈ table.rows.enum,
          rowMessages fields (headerMap hs (fields.map (·.name))) cs p.1 p.2 ≠ []) ∧
      (∀ errs, validate_table table fields cs = .error errs →
        errs = (table.rows.enum.map
          (fun p => rowMessages fields (headerMap hs (fields.map (·.name))) cs p.1 p.2)).join) ∧
      (∀ recs, validate_table table fields cs = .ok recs →
        recs = table.rows.map
          (fun row => rowRecord fields (headerMap hs (fields.map (·.name))) cs row))) := by
  intro table fields cs hs hh hne
  have hvt : validate_table table fields cs =
      (if ((table.rows.enum.map
            (fun p => rowMessages fields (headerMap hs (fields.map (·.name))) cs p.1 p.2)).join) ≠ []
        then .error ((table.rows.enum.map
            (fun p => rowMessages fields (headerMap hs (fields.map (·.name))) cs p.1 p.2)).join)
        else .ok ((table.rows.enum.filter
            (fun p => rowMessages fields (headerMap hs (fields.map (·.name))) cs p.1 p.2 = [])).map
            (fun p => rowRecord fields (headerMap hs (fields.map (·.name))) cs p.2))) := by
    unfold validate_table
    rw [hh]
    simp only [hne, if_false]
    rw [vtFold]
    simp
  constructor
  · constructor
    · intro ⟨errs, herrs⟩
      rw [hvt] at herrs
      by_cases hj : ((table.rows.enum.map
          (fun p => rowMessages fields (headerMap hs (fields.map (·.name))) cs p.1 p.2)).join) = []
      · rw [if_neg (by simpa using hj)] at herrs
        exact absurd herrs (by simp)
      · have hex : ∃ m ∈ (table.rows.enum.map
            (fun p => rowMessages fields (headerMap hs (fields.map (·.name))) cs p.1 p.2)),
            m ≠ [] := by
          by_contra hcon
          push_neg at hcon
          exact hj (List.join_eq_nil_iff.mpr hcon)
        rcases hex with ⟨m, hm, hmne⟩
        rcases List.mem_map.mp hm with ⟨p, hp, hpm⟩
        exact ⟨p, hp, by rw [hpm]; exact hmne⟩
    · intro ⟨p, hp, hpne⟩
      rw [hvt]
      have hj : ((table.rows.enum.map
          (fun p => rowMessages fields (headerMap hs (fields.map (·.name))) cs p.1 p.2)).join) ≠ [] := by
        intro hj
        have := (List.join_eq_nil_iff.mp hj) _ (List.mem_map_of_mem _ hp)
        exact hpne this
      rw [if_pos (by simpa using hj)]
      exact ⟨_, rfl⟩
  constructor
  · intro errs herrs
    rw [hvt] at herrs
    by_cases hj : ((table.rows.enum.map
        (fun p => rowMessages fields (headerMap hs (fields.map (·.name))) cs p.1 p.2)).join) = []
    · rw [if_neg (by simpa using hj)] at herrs
      exact absurd herrs (by simp)
    · rw [if_pos (by simpa using hj)] at herrs
      exact (Except.error.injEq _ _).mp herrs.symm |>.symm ▸ rfl
  · intro recs hrecs
    rw [hvt] at hrecs
    by_cases hj : ((table.rows.enum.map
        (fun p => rowMessages fields (headerMap hs (fields.map (·.name))) cs p.1 p.2)).join) = []
    · rw [if_neg (by simpa using hj)] at hrecs
      have hall : ∀ p ∈ table.rows.enum,
          rowMessages fields (headerMap hs (fields.map (·.name))) cs p.1 p.2 = [] := by
        intro p hp
        exact (List.join_eq_nil_iff.mp hj) _ (List.mem_map_of_mem _ hp)
      have hfil : (table.rows.enum.filter
          (fun p => rowMessages fields (headerMap hs (fields.map (·.name))) cs p.1 p.2 = []))
          = table.rows.enum := by
        apply List.filter_eq_self.mpr
        intro p hp
        simpa using hall p hp
      rw [hfil] at hrecs
      have hmaps : (table.rows.enum.map
          (fun p => rowRecord fields (headerMap hs (fields.map (·.name))) cs p.2))
          = table.rows.map
            (fun row => rowRecord fields (headerMap hs (fields.map (·.name))) cs row) := by
        have h1 : (table.rows.enum.map
            (fun p => rowRecord fields (headerMap hs (fields.map (·.name))) cs p.2))
            = (table.rows.enum.map Prod.snd).map
              (fun row => rowRecord fields (headerMap hs (fields.map (·.name))) cs row) := by
          rw [List.map_map]
          rfl
        rw [h1, List.enum_map_snd]
      rw [hmaps] at hrecs
      exact ((Except.ok.injEq _ _).mp hrecs).symm
    · rw [if_pos (by simpa using hj)] at hrecs
      exact absurd hrecs (by simp)

theorem c5_witness :
    (((∃ errs, validate_table
          ⟨some [strL "Score"], [[strL "a"], [strL "2"], [strL "b"]], none, none, {}⟩
          [⟨strL "score", PyType.int, none⟩] DEFAULT_CONVERSION_SCHEMA = .error errs) ↔
      ∃ p ∈ (Table.rows ⟨some [strL "Score"], [[strL "a"], [strL "2"], [strL "b"]], none, none, {}⟩).enum,
        rowMessages [⟨strL "score", PyType.int, none⟩]
          (headerMap [strL "Score"] ([⟨strL "score", PyType.int, none⟩].map (fun f => FieldDef.name f)))
          DEFAULT_CONVERSION_SCHEMA p.1 p.2 ≠ []) ∧
    (∀ errs, validate_table
          ⟨some [strL "Score"], [[strL "a"], [strL "2"], [strL "b"]], none, none, {}⟩
          [⟨strL "score", PyType.int, none⟩] DEFAULT_CONVERSION_SCHEMA = .error errs →
        errs = ((Table.rows ⟨some [strL "Score"], [[strL "a"], [strL "2"], [strL "b"]], none, none, {}⟩).enum.map
          (fun p => rowMessages [⟨strL "score", PyType.int, none⟩]
            (headerMap [strL "Score"] ([⟨strL "score", PyType.int, none⟩].map (fun f => FieldDef.name f)))
            DEFAULT_CONVERSION_SCHEMA p.1 p.2)).join) ∧
    (∀ recs, validate_table
          ⟨some [strL "Score"], [[strL "a"], [strL "2"], [strL "b"]], none, none, {}⟩
          [⟨strL "score", PyType.int, none⟩] DEFAULT_CONVERSION_SCHEMA = .ok recs →
        recs = (Table.rows ⟨some [strL "Score"], [[strL "a"], [strL "2"], [strL "b"]], none, none, {}⟩).map
          (fun row => rowRecord [⟨strL "score", PyType.int, none⟩]
            (headerMap [strL "Score"] ([⟨strL "score", PyType.int, none⟩].map (fun f => FieldDef.name f)))
            DEFAULT_CONVERSION_SCHEMA row))) :=
  c5_full_table_validation
    ⟨some [strL "Score"], [[strL "a"], [strL "2"], [strL "b"]], none, none, {}⟩
    [⟨strL "score", PyType.int, none⟩] DEFAULT_CONVERSION_SCHEMA [strL "Score"]
    rfl (by decide)

/-! ## Claim C3 -/

theorem splitOnNl_no_newline (s : Str) (h : '\n' ∉ s) : splitOnNl s = [s] := by
  induction s with
  | nil => rfl
  | cons a rest ih =>
    have ha : a ≠ '\n' := fun hh => h (hh ▸ List.mem_cons_self a rest)
    have hrest : '\n' ∉ rest := fun hh => h (List.mem_cons_of_mem a hh)
    unfold splitOnNl
    rw [if_neg ha, ih hrest]

theorem splitOnNl_append_newline (x t : Str) (hx : '\n' ∉ x) :
    splitOnNl (x ++ '\n' :: t) = x :: splitOnNl t := by
  induction x with
  | nil => simp [splitOnNl]
  | cons a rest ih =>
    have ha : a ≠ '\n' := fun hh => hx (hh ▸ List.mem_cons_self a rest)
    have hrest : '\n' ∉ rest := fun hh => hx (List.mem_cons_of_mem a hh)
    rw [List.cons_append]
    conv_lhs => rw [splitOnNl]
    rw [if_neg ha, ih hrest]

theorem joinNl_cons_cons (x y : Str) (rest : List Str) :
    joinNl (x :: y :: rest) = x ++ '\n' :: joinNl (y :: rest) := by
  unfold joinNl
  simp [List.intercalate, List.intersperse]

theorem joinNl_single (x : Str) : joinNl [x] = x := by
  simp [joinNl, List.intercalate]

theorem splitOnNl_joinNl (ls : List Str) (hne : ls ≠ []) (h : ∀ l ∈ ls, '\n' ∉ l) :
    splitOnNl (joinNl ls) = ls := by
  induction ls with
  | nil => exact absurd rfl hne
  | cons x rest ih =>
    cases rest with
    | nil =>
      rw [joinNl_single]
      exact splitOnNl_no_newline x (h x (List.mem_cons_self x []))
    | cons y rest' =>
      rw [joinNl_cons_cons]
      rw [splitOnNl_append_newline x (joinNl (y :: rest')) (h x (List.mem_cons_self _ _))]
      rw [ih (by simp) (fun l hl => h l (List.mem_cons_of_mem x hl))]

theorem ptFold_blanks (schema : ParsingSchema) (blanks : List Str)
    (hb : ∀ l ∈ blanks, pyStrip l = []) :
    ∀ st : PTState, blanks.foldl (ptStep schema) st = st := by
  induction blanks with
  | nil => intro st; rfl
  | cons l rest ih =>
    intro st
    rw [List.foldl_cons, ptStep_of_blank schema st l (hb l (List.mem_cons_self l rest))]
    exact ih (fun x hx => hb x (List.mem_cons_of_mem l hx)) st

theorem parseTableLines_append_blanks (schema : ParsingSchema) (xs blanks : List Str)
    (hb : ∀ l ∈ blanks, pyStrip l = []) :
    parseTableLines (xs ++ blanks) schema = parseTableLines xs schema := by
  unfold parseTableLines
  rw [List.foldl_append, ptFold_blanks schema blanks hb]

theorem noNl_metadataLine (blob : Str) (hb : '\n' ∉ blob) : '\n' ∉ metadataLine blob := by
  intro hmem
  unfold metadataLine at hmem
  rcases List.mem_append.mp hmem with hmem | hmem
  · rcases List.mem_append.mp hmem with hmem | hmem
    · exact absurd hmem (by decide)
    · exact hb hmem
  · exact absurd hmem (by decide)

theorem pyStrip_metadataLine (blob : Str) : pyStrip (metadataLine blob) = metadataLine blob := by
  apply pyStrip_eq_self
  · intro c hc
    have : (metadataLine blob).head? = some '<' := rfl
    rw [this] at hc
    injection hc with hc
    rw [← hc]
    decide
  · intro c hc
    have h1 : (metadataLine blob).getLast? = some '>' := by
      unfold metadataLine
      rw [show metadataMarker ++ blob ++ metadataClose
          = (metadataMarker ++ blob) ++ metadataClose from by simp]
      rw [List.getLast?_append]
      rfl
    rw [h1] at hc
    injection hc with hc
    rw [← hc]
    decide

theorem isMetadataLine_metadataLine (blob : Str) :
    isMetadataLine (metadataLine blob) = true := by
  unfold isMetadataLine
  rw [pyStrip_metadataLine]
  rw [Bool.and_eq_true]
  constructor
  · exact List.isPrefixOf_iff_prefix.mpr ⟨blob ++ metadataClose, by simp [metadataLine]⟩
  · exact List.isSuffixOf_iff_suffix.mpr ⟨metadataMarker ++ blob, by simp [metadataLine]⟩
theorem metadataBlob_metadataLine (blob : Str) :
    metadataBlob (metadataLine blob) = blob := by
  unfold metadataBlob
  rw [pyStrip_metadataLine]
  show ((metadataLine blob).drop metadataMarker.length).take
    (((metadataLine blob).drop metadataMarker.length).length - metadataClose.length) = blob
  have hdrop : (metadataLine blob).drop metadataMarker.length = blob ++ metadataClose := by
    unfold metadataLine
    rw [List.append_assoc, List.drop_left]
  rw [hdrop]
  have hlen : (blob ++ metadataClose).length - metadataClose.length = blob.length := by
    simp only [List.length_append]
    omega
  rw [hlen, List.take_left]

theorem isMetadataLine_blank (l : Str) (hl : pyStrip l = []) :
    isMetadataLine l = false := by
  unfold isMetadataLine
  rw [hl]
  rfl

theorem extract_metadata_single (pre gap : List Str) (blob : Str)
    (hpre : ∀ l ∈ pre, isMetadataLine l = false)
    (hgap : ∀ l ∈ gap, pyStrip l = []) :
    extract_metadata (pre ++ gap ++ [metadataLine blob]) = parseKV blob := by
  unfold extract_metadata
  rw [List.filterMap_append, List.filterMap_append]
  have h1 : pre.filterMap (fun l =>
      if isMetadataLine l then parseKV (metadataBlob l) else none) = [] := by
    apply List.filterMap_eq_nil.mpr
    intro l hl
    rw [hpre l hl]
    rfl
  have h2 : gap.filterMap (fun l =>
      if isMetadataLine l then parseKV (metadataBlob l) else none) = [] := by
    apply List.filterMap_eq_nil.mpr
    intro l hl
    rw [isMetadataLine_blank l (hgap l hl)]
    rfl
  rw [h1, h2]
  simp only [List.nil_append]
  rw [List.filterMap_cons]
  rw [isMetadataLine_metadataLine blob]
  simp only [if_true, metadataBlob_metadataLine]
  cases hkv : parseKV blob with
  | none => simp
  | some kv => simp

theorem filter_drop_metadata (pre gap : List Str) (blob : Str)
    (hpre : ∀ l ∈ pre, isMetadataLine l = false)
    (hgap : ∀ l ∈ gap, pyStrip l = []) :
    (pre ++ gap ++ [metadataLine blob]).filter (fun l => !isMetadataLine l)
      = pre ++ gap := by
  rw [List.filter_append, List.filter_append]
  have h1 : pre.filter (fun l => !isMetadataLine l) = pre :=
    List.filter_eq_self.mpr (fun l hl => by rw [hpre l hl]; rfl)
  have h2 : gap.filter (fun l => !isMetadataLine l) = gap :=
    List.filter_eq_self.mpr (fun l hl => by rw [isMetadataLine_blank l (hgap l hl)]; rfl)
  have h3 : ([metadataLine blob] : List Str).filter (fun l => !isMetadataLine l) = [] := by
    rw [List.filter_cons]
    rw [isMetadataLine_metadataLine blob]
    rfl
  rw [h1, h2, h3, List.append_nil]

/-- C3: for every block made of non-annotation table lines, then blank
lines, then a single-line metadata annotation, the table parsing of the
evolved parsing module returns the schema-configuration record in its
metadata together with the parsed blob under the `visual` key (absent
exactly when the blob is malformed, i.e. `parseKV blob = none`), and the
annotation — well-formed or not — never changes the parsed headers and
rows of the surrounding table. -/
theorem c3_metadata_extraction :
    ∀ (pre gap : List Str) (blob : Str) (schema : ParsingSchema),
      (∀ l ∈ pre, isMetadataLine l = false) →
      (∀ l ∈ pre, '\n' ∉ l) →
      (∀ l ∈ gap, pyStrip l = []) →
      (∀ l ∈ gap, '\n' ∉ l) →
      '\n' ∉ blob →
      (parse_table_with_metadata (joinNl (pre ++ gap ++ [metadataLine blob])) schema).metadata.schema_used
          = some schema ∧
      (parse_table_with_metadata (joinNl (pre ++ gap ++ [metadataLine blob])) schema).metadata.visual
          = parseKV blob ∧
      (parse_table_with_metadata (joinNl (pre ++ gap ++ [metadataLine blob])) schema).headers
          = (parseTableLines pre schema).headers ∧
      (parse_table_with_metadata (joinNl (pre ++ gap ++ [metadataLine blob])) schema).rows
          = (parseTableLines pre schema).rows := by
  intro pre gap blob schema hpre hprenl hgap hgapnl hblobnl
  have hsplit : splitOnNl (joinNl (pre ++ gap ++ [metadataLine blob]))
      = pre ++ gap ++ [metadataLine blob] := by
    apply splitOnNl_joinNl
    · simp
    · intro l hl
      rcases List.mem_append.mp hl with h | h
      · rcases List.mem_append.mp h with h | h
        · exact hprenl l h
        · exact hgapnl l h
      · rw [List.mem_singleton.mp h]
        exact noNl_metadataLine blob hblobnl
  have hbase : parseTableLines
      ((splitOnNl (joinNl (pre ++ gap ++ [metadataLine blob]))).filter
        (fun l => !isMetadataLine l)) schema = parseTableLines pre schema := by
    rw [hsplit, filter_drop_metadata pre gap blob hpre hgap]
    exact parseTableLines_append_blanks schema pre gap hgap
  refine ⟨rfl, ?_, ?_, ?_⟩
  · show extract_metadata (splitOnNl (joinNl (pre ++ gap ++ [metadataLine blob]))) = parseKV blob
    rw [hsplit]
    exact extract_metadata_single pre gap blob hpre hgap
  · show (parseTableLines _ schema).headers = _
    rw [hbase]
  · show (parseTableLines _ schema).rows = _
    rw [hbase]

theorem c3_witness :
    (∀ l ∈ [strL "| A |", strL "|---|", strL "| 1 |"], isMetadataLine l = false) ∧
    (∀ l ∈ [strL "| A |", strL "|---|", strL "| 1 |"], '\n' ∉ l) ∧
    (∀ l ∈ ([[], []] : List Str), pyStrip l = []) ∧
    (∀ l ∈ ([[], []] : List Str), '\n' ∉ l) ∧
    ('\n' ∉ strL "\x7b\"columnWidths\": [100]\x7d") ∧
    (parse_table_with_metadata
        (joinNl ([strL "| A |", strL "|---|", strL "| 1 |"] ++ [[], []]
          ++ [metadataLine (strL "\x7b\"columnWidths\": [100]\x7d")])) DEFAULT_SCHEMA).metadata.visual
      = parseKV (strL "\x7b\"columnWidths\": [100]\x7d") ∧
    (parse_table_with_metadata
        (joinNl ([strL "| A |", strL "|---|", strL "| 1 |"] ++ [[], []]
          ++ [metadataLine (strL "\x7b\"columnWidths\": [100]\x7d")])) DEFAULT_SCHEMA).rows
      = (parseTableLines [strL "| A |", strL "|---|", strL "| 1 |"] DEFAULT_SCHEMA).rows :=
  ⟨by decide, by decide, by decide, by decide, by decide,
    (c3_metadata_extraction [strL "| A |", strL "|---|", strL "| 1 |"] [[], []]
      (strL "\x7b\"columnWidths\": [100]\x7d") DEFAULT_SCHEMA (by decide) (by decide) (by decide)
      (by decide) (by decide)).2.1,
    (c3_metadata_extraction [strL "| A |", strL "|---|", strL "| 1 |"] [[], []]
      (strL "\x7b\"columnWidths\": [100]\x7d") DEFAULT_SCHEMA (by decide) (by decide) (by decide)
      (by decide) (by decide)).2.2.2⟩

/-! ## Claim C6 -/

theorem wbLoop_stop (schema : MultiTableParsingSchema) :
    ∀ (zs : List Str) (k : Nat) (l : Str) (st : WBState),
      zs.get? k = some l → isWbBoundary schema l = true →
      wbLoop schema zs st = wbLoop schema (zs.take k) st := by
  intro zs
  induction zs with
  | nil => intro k l st hget _; simp at hget
  | cons z rest ih =>
    intro k l st hget hb
    cases k with
    | zero =>
      simp only [List.get?] at hget
      injection hget with hget
      subst hget
      rw [List.take_zero]
      conv_lhs => rw [wbLoop]
      rw [if_pos hb]
      rfl
    | succ k' =>
      simp only [List.get?] at hget
      rw [List.take_succ_cons]
      conv_lhs => rw [wbLoop]
      conv_rhs => rw [wbLoop]
      by_cases hbz : isWbBoundary schema z = true
      · rw [if_pos hbz, if_pos hbz]
      · rw [if_neg hbz, if_neg hbz]
        exact ih k' l (wbStep schema st z) hget hb

theorem findIdx?_ge (p : Str → Bool) :
    ∀ (l : List Str) (s i : Nat), List.findIdx? p l s = some i → s ≤ i := by
  intro l
  induction l with
  | nil => intro s i h; simp [List.findIdx?] at h
  | cons x xs ih =>
    intro s i h
    rw [List.findIdx?_cons] at h
    by_cases hp : p x = true
    · rw [if_pos hp] at h
      injection h with h
      omega
    · rw [if_neg hp] at h
      have := ih (s + 1) i h
      omega

theorem findIdx?_take_of_lt (p : Str → Bool) :
    ∀ (l : List Str) (j i s : Nat),
      List.findIdx? p l s = some i → i < s + j → List.findIdx? p (l.take j) s = some i := by
  intro l
  induction l with
  | nil => intro j i s h _; simpa using h
  | cons x xs ih =>
    intro j i s h hlt
    rw [List.findIdx?_cons] at h
    by_cases hp : p x = true
    · rw [if_pos hp] at h
      injection h with h
      obtain ⟨j', rfl⟩ : ∃ j', j = j' + 1 := by
        cases j with
        | zero => omega
        | succ j' => exact ⟨j', rfl⟩
      rw [List.take_succ_cons, List.findIdx?_cons, if_pos hp, h]
    · rw [if_neg hp] at h
      have hge := findIdx?_ge p xs (s + 1) i h
      obtain ⟨j', rfl⟩ : ∃ j', j = j' + 1 := by
        cases j with
        | zero => omega
        | succ j' => exact ⟨j', rfl⟩
      rw [List.take_succ_cons, List.findIdx?_cons, if_neg hp]
      exact ih j' i (s + 1) h (by omega)

theorem parse_workbook_eq (md : Str) (schema : MultiTableParsingSchema) :
    parse_workbook md schema =
      match wbStart schema (splitOnNl md) with
      | none => ⟨[]⟩
      | some start =>
        ⟨flushSheet schema (wbLoop schema ((splitOnNl md).drop start) ⟨[], none, []⟩)⟩ := rfl

/-- C6: a line whose leading hash count is strictly below the sheet header
level ends workbook parsing: the parse of the whole document equals the
parse of the document truncated just before that line, so nothing after the
boundary reaches any sheet; concretely, with root marker `# Tables` and a
`## Sheet1` section followed by a bare `# Other` heading, only Sheet1 with
its single table survives. -/
theorem c6_workbook_boundary :
    (∀ (lines : List Str) (j : Nat) (l : Str) (schema : MultiTableParsingSchema) (start : Nat),
      (∀ x ∈ lines, '\n' ∉ x) →
      lines.get? j = some l → isWbBoundary schema l = true →
      wbStart schema lines = some start → start ≤ j →
      parse_workbook (joinNl lines) schema = parse_workbook (joinNl (lines.take j)) schema) ∧
    parse_workbook
        (strL "# Tables\n\n## Sheet1\n| A |\n|---|\n| 1 |\n\n# Other\nstuff\n| X |\n|---|\n| 9 |")
        {}
      = ⟨[⟨strL "Sheet1",
          [{ headers := some [strL "A"], rows := [[strL "1"]],
             metadata := { schema_used := some (MultiTableParsingSchema.base {}) } }]⟩]⟩ := by
  constructor
  · intro lines j l schema start hnl hget hb hstart hle
    have hjlen : j < lines.length := by
      rcases List.get?_eq_some.mp hget with ⟨hlt, _⟩
      exact hlt
    have hne : lines ≠ [] := by
      intro h
      rw [h] at hjlen
      simp at hjlen
    have hL1 : splitOnNl (joinNl lines) = lines := splitOnNl_joinNl lines hne hnl
    by_cases hj0 : j = 0
    · subst hj0
      have hstart0 : start = 0 := Nat.le_zero.mp hle
      subst hstart0
      have hmarker : schema.root_marker = [] := by
        unfold wbStart at hstart
        by_cases hm : schema.root_marker = []
        · exact hm
        · rw [if_neg hm] at hstart
          cases hfi : lines.findIdx? (fun x => pyStrip x == schema.root_marker) with
          | none => rw [hfi] at hstart; exact absurd hstart (by simp)
          | some i => rw [hfi] at hstart; simp at hstart
      have hmarkerKO : (headerMarker schema.sheet_header_level).isPrefixOf ([] : Str) = false := by
        rw [Bool.eq_false_iff]
        intro hpf
        have hnil : headerMarker schema.sheet_header_level = [] :=
          List.prefix_nil.mp (List.isPrefixOf_iff_prefix.mp hpf)
        unfold headerMarker at hnil
        simp at hnil
      have hbd : isWbBoundary schema ([] : Str) = false := rfl
      have hstepnil : wbStep schema ⟨[], none, []⟩ [] = ⟨[], none, []⟩ := by
        unfold wbStep
        simp only [show pyStrip ([] : Str) = [] from rfl, hmarkerKO]
        simp
      have hLHS : parse_workbook (joinNl lines) schema = ⟨[]⟩ := by
        rw [parse_workbook_eq, hL1]
        have hws : wbStart schema lines = some 0 := hstart
        rw [hws]
        show Workbook.mk (flushSheet schema (wbLoop schema (lines.drop 0) ⟨[], none, []⟩)) = ⟨[]⟩
        rw [List.drop_zero]
        rw [wbLoop_stop schema lines 0 l ⟨[], none, []⟩ hget hb]
        rw [List.take_zero]
        rfl
      have hRHS : parse_workbook (joinNl (lines.take 0)) schema = ⟨[]⟩ := by
        rw [List.take_zero, parse_workbook_eq]
        have hws : wbStart schema (splitOnNl (joinNl [])) = some 0 := by
          show wbStart schema [[]] = some 0
          unfold wbStart
          rw [if_pos hmarker]
        rw [hws]
        show Workbook.mk (flushSheet schema
          (wbLoop schema (([[]] : List Str).drop 0) ⟨[], none, []⟩)) = ⟨[]⟩
        rw [List.drop_zero]
        conv_lhs => rw [wbLoop]
        rw [if_neg (by rw [hbd]; simp)]
        show Workbook.mk (flushSheet schema (wbStep schema ⟨[], none, []⟩ [])) = ⟨[]⟩
        rw [hstepnil]
        rfl
      rw [hLHS, hRHS]
    · have hj1 : 1 ≤ j := Nat.one_le_iff_ne_zero.mpr hj0
      have htakene : lines.take j ≠ [] := by
        intro h
        have hlen := congrArg List.length h
        simp only [List.length_take, List.length_nil] at hlen
        omega
      have hL2 : splitOnNl (joinNl (lines.take j)) = lines.take j :=
        splitOnNl_joinNl _ htakene (fun x hx => hnl x (List.take_subset j lines hx))
      have hstart2 : wbStart schema (lines.take j) = some start := by
        unfold wbStart at hstart ⊢
        by_cases hm : schema.root_marker = []
        · rw [if_pos hm] at hstart ⊢
          exact hstart
        · rw [if_neg hm] at hstart ⊢
          cases hfi : lines.findIdx? (fun x => pyStrip x == schema.root_marker) with
          | none => rw [hfi] at hstart; exact absurd hstart (by simp)
          | some i =>
            rw [hfi] at hstart
            have hi : i + 1 = start := by injection hstart
            rw [findIdx?_take_of_lt _ lines j i 0 hfi (by omega)]
            show some (i + 1) = some start
            rw [hi]
      rw [parse_workbook_eq, parse_workbook_eq, hL1, hL2, hstart, hstart2]
      show Workbook.mk (flushSheet schema (wbLoop schema (lines.drop start) ⟨[], none, []⟩))
        = Workbook.mk (flushSheet schema (wbLoop schema ((lines.take j).drop start) ⟨[], none, []⟩))
      rw [List.drop_take]
      have hget2 : (lines.drop start).get? (j - start) = some l := by
        rw [List.get?_drop]
        rw [show start + (j - start) = j from by omega]
        exact hget
      rw [wbLoop_stop schema (lines.drop start) (j - start) l ⟨[], none, []⟩ hget2 hb]
  · decide

theorem c6_witness :
    parse_workbook
        (joinNl [strL "# Tables", [], strL "## Sheet1", strL "| A |", strL "|---|",
          strL "| 1 |", [], strL "# Other", strL "stuff", strL "| X |", strL "|---|",
          strL "| 9 |"]) {}
      = parse_workbook
        (joinNl ([strL "# Tables", [], strL "## Sheet1", strL "| A |", strL "|---|",
          strL "| 1 |", [], strL "# Other", strL "stuff", strL "| X |", strL "|---|",
          strL "| 9 |"].take 7)) {} :=
  c6_workbook_boundary.1
    [strL "# Tables", [], strL "## Sheet1", strL "| A |", strL "|---|",
      strL "| 1 |", [], strL "# Other", strL "stuff", strL "| X |", strL "|---|",
      strL "| 9 |"]
    7 (strL "# Other") {} 1 (by decide) (by decide) (by decide) (by decide) (by decide)

/-! ## Claim C1: rendering structure -/

theorem head?_append_of_ne_nil (l₁ l₂ : Str) (h : l₁ ≠ []) :
    (l₁ ++ l₂).head? = l₁.head? := by
  cases l₁ with
  | nil => exact absurd rfl h
  | cons a t => rfl

theorem getLast?_cons_of_ne_nil (a : Char) (l : Str) (h : l ≠ []) :
    (a :: l).getLast? = l.getLast? := by
  cases l with
  | nil => exact absurd rfl h
  | cons b t => exact List.getLast?_cons_cons

theorem restRender_single (c : Char) (w : Str) : restRender c [w] = ' ' :: w := rfl

theorem restRender_cons₂ (c : Char) (w w2 : Str) (ws : List Str) :
    restRender c (w :: w2 :: ws) = ' ' :: w ++ [' ', c] ++ restRender c (w2 :: ws) := rfl

theorem restRender_ne_nil (c : Char) (cells : List Str) (h : cells ≠ []) :
    restRender c cells ≠ [] := by
  cases cells with
  | nil => exact absurd rfl h
  | cons w ws =>
    cases ws with
    | nil => simp [restRender_single]
    | cons w2 ws' => simp [restRender_cons₂]

theorem intercalate_cons_cons (sep x y : Str) (rest : List Str) :
    List.intercalate sep (x :: y :: rest) = x ++ sep ++ List.intercalate sep (y :: rest) := by
  simp [List.intercalate, List.intersperse]

theorem intercalate_single (sep x : Str) : List.intercalate sep [x] = x := by
  simp [List.intercalate]

theorem restRender_eq_cons_intercalate (c : Char) :
    ∀ (cells : List Str), cells ≠ [] →
      restRender c cells = ' ' :: List.intercalate [' ', c, ' '] cells := by
  intro cells
  induction cells with
  | nil => intro h; exact absurd rfl h
  | cons w ws ih =>
    intro _
    cases ws with
    | nil => rw [restRender_single, intercalate_single]
    | cons w2 ws' =>
      rw [restRender_cons₂, intercalate_cons_cons, ih (by simp)]
      simp

theorem restRender_noNl (c : Char) (hc : c ≠ '\n') :
    ∀ (cells : List Str), (∀ w ∈ cells, '\n' ∉ w) → '\n' ∉ restRender c cells := by
  intro cells
  induction cells with
  | nil => intro _; simp [restRender]
  | cons w ws ih =>
    intro hcells hmem
    cases ws with
    | nil =>
      rw [restRender_single] at hmem
      rcases List.mem_cons.mp hmem with h | h
      · exact absurd h.symm (by decide)
      · exact hcells w (List.mem_cons_self w []) h
    | cons w2 ws' =>
      rw [restRender_cons₂] at hmem
      rcases List.mem_cons.mp hmem with h | h
      · exact absurd h.symm (by decide)
      · rcases List.mem_append.mp h with h2 | h2
        · rcases List.mem_append.mp h2 with h3 | h3
          · exact hcells w (List.mem_cons_self w _) h3
          · rcases List.mem_cons.mp h3 with h4 | h4
            · exact absurd h4.symm (by decide)
            · rcases List.mem_singleton.mp h4 with h5
              exact hc h5.symm
        · exact ih (fun x hx => hcells x (List.mem_cons_of_mem w hx)) h2

theorem restRender_last_not_space (c : Char) :
    ∀ (cells : List Str), cells ≠ [] →
      (∀ w ∈ cells, pyStrip w = w ∧ w ≠ []) →
      ∀ a, (restRender c cells).getLast? = some a → isPySpace a = false := by
  intro cells
  induction cells with
  | nil => intro h; exact absurd rfl h
  | cons w ws ih =>
    intro _ hcells a ha
    cases ws with
    | nil =>
      rw [restRender_single] at ha
      rcases hcells w (List.mem_cons_self w []) with ⟨hstr, hne⟩
      rw [getLast?_cons_of_ne_nil ' ' w hne] at ha
      exact getLast_not_space_of_stripped w hstr a ha
    | cons w2 ws' =>
      rw [restRender_cons₂] at ha
      rw [List.getLast?_append] at ha
      have hrne : restRender c (w2 :: ws') ≠ [] := restRender_ne_nil c _ (by simp)
      cases hg : (restRender c (w2 :: ws')).getLast? with
      | none => exact absurd (List.getLast?_eq_none_iff.mp hg) hrne
      | some b =>
        rw [hg] at ha
        simp only [Option.or_some] at ha
        injection ha with ha
        subst ha
        exact ih (by simp) (fun x hx => hcells x (List.mem_cons_of_mem w hx)) b hg

theorem splitEscGo_nil (sep : Str) (fuel : Nat) (prev : Option Char) :
    splitEscGo sep fuel [] prev = [[]] := by
  cases fuel <;> rfl

theorem splitEscGo_restRender (c : Char) (hcsp : c ≠ ' ') :
    ∀ (cells : List Str) (fuel : Nat) (prev : Option Char),
      cells ≠ [] → (∀ w ∈ cells, c ∉ w) →
      (restRender c cells).length ≤ fuel →
      splitEscGo [c] fuel (restRender c cells) prev = tailParts cells := by
  intro cells
  induction cells with
  | nil => intro fuel prev h; exact absurd rfl h
  | cons w ws ih =>
    intro fuel prev _ hcells hfuel
    cases ws with
    | nil =>
      rw [restRender_single]
      have hnotin : c ∉ ' ' :: w := by
        intro hmem
        rcases List.mem_cons.mp hmem with h | h
        · exact hcsp h
        · exact hcells w (List.mem_cons_self w []) h
      rw [splitEscGo_no_sep c fuel (' ' :: w) prev hnotin]
      rfl
    | cons w2 ws' =>
      have hfuel' : w.length + 3 + (restRender c (w2 :: ws')).length ≤ fuel := by
        rw [restRender_cons₂] at hfuel
        simp only [List.length_append, List.length_cons] at hfuel
        omega
      rw [restRender_cons₂]
      have hform : (' ' :: w ++ [' ', c] ++ restRender c (w2 :: ws'))
          = (' ' :: (w ++ [' '])) ++ (c :: restRender c (w2 :: ws')) := by simp
      rw [hform]
      have hchlen : (' ' :: (w ++ [' '])).length = w.length + 2 := by simp
      obtain ⟨f, hf, hfR⟩ : ∃ f, fuel - (w.length + 2) = f + 1 ∧
          (restRender c (w2 :: ws')).length ≤ f := by
        refine ⟨fuel - (w.length + 2) - 1, ?_, ?_⟩ <;> omega
      have hprevA : prevAfter prev (' ' :: (w ++ [' '])) = some ' ' := by
        unfold prevAfter
        rw [getLast?_cons_of_ne_nil ' ' (w ++ [' ']) (by simp), List.getLast?_concat]
      have hinner : splitEscGo [c] (fuel - (' ' :: (w ++ [' '])).length)
          (c :: restRender c (w2 :: ws')) (prevAfter prev (' ' :: (w ++ [' '])))
          = [] :: tailParts (w2 :: ws') := by
        rw [hprevA, hchlen, hf]
        rw [splitEscGo_sep c f (restRender c (w2 :: ws')) (some ' ') (by decide)]
        rw [ih f (some c) (by simp) (fun x hx => hcells x (List.mem_cons_of_mem w hx)) hfR]
      have hnotin : c ∉ ' ' :: (w ++ [' ']) := by
        intro hmem
        rcases List.mem_cons.mp hmem with h | h
        · exact hcsp h
        · rcases List.mem_append.mp h with h2 | h2
          · exact hcells w (List.mem_cons_self w _) h2
          · exact hcsp (List.mem_singleton.mp h2)
      rw [splitEscGo_chunk c (' ' :: (w ++ [' '])) (c :: restRender c (w2 :: ws')) fuel prev
        hnotin (by rw [hchlen]; omega) [] (tailParts (w2 :: ws')) hinner]
      simp [tailParts]

theorem splitEscGo_restRender_closed (c : Char) (hcsp : c ≠ ' ') :
    ∀ (cells : List Str) (fuel : Nat) (prev : Option Char),
      cells ≠ [] → (∀ w ∈ cells, c ∉ w) →
      (restRender c cells).length + 2 ≤ fuel →
      splitEscGo [c] fuel (restRender c cells ++ [' ', c]) prev
        = cells.map (fun w => ' ' :: w ++ [' ']) ++ [[]] := by
  intro cells
  induction cells with
  | nil => intro fuel prev h; exact absurd rfl h
  | cons w ws ih =>
    intro fuel prev _ hcells hfuel
    cases ws with
    | nil =>
      have hfuel' : w.length + 3 ≤ fuel := by
        simp only [restRender_single, List.length_cons] at hfuel
        omega
      rw [restRender_single]
      have hform : ((' ' :: w) ++ [' ', c]) = (' ' :: (w ++ [' '])) ++ (c :: []) := by simp
      rw [hform]
      have hchlen : (' ' :: (w ++ [' '])).length = w.length + 2 := by simp
      obtain ⟨f, hf⟩ : ∃ f, fuel - (w.length + 2) = f + 1 := by
        refine ⟨fuel - (w.length + 2) - 1, ?_⟩
        omega
      have hprevA : prevAfter prev (' ' :: (w ++ [' '])) = some ' ' := by
        unfold prevAfter
        rw [getLast?_cons_of_ne_nil ' ' (w ++ [' ']) (by simp), List.getLast?_concat]
      have hinner : splitEscGo [c] (fuel - (' ' :: (w ++ [' '])).length)
          (c :: ([] : Str)) (prevAfter prev (' ' :: (w ++ [' '])))
          = [] :: [[]] := by
        rw [hprevA, hchlen, hf]
        rw [splitEscGo_sep c f ([] : Str) (some ' ') (by decide)]
        rw [splitEscGo_nil]
      have hnotin : c ∉ ' ' :: (w ++ [' ']) := by
        intro hmem
        rcases List.mem_cons.mp hmem with h | h
        · exact hcsp h
        · rcases List.mem_append.mp h with h2 | h2
          · exact hcells w (List.mem_cons_self w _) h2
          · exact hcsp (List.mem_singleton.mp h2)
      rw [splitEscGo_chunk c (' ' :: (w ++ [' '])) (c :: []) fuel prev
        hnotin (by rw [hchlen]; omega) [] [[]] hinner]
      simp
    | cons w2 ws' =>
      have hfuel' : w.length + 3 + (restRender c (w2 :: ws')).length + 2 ≤ fuel := by
        rw [restRender_cons₂] at hfuel
        simp only [List.length_append, List.length_cons] at hfuel
        omega
      rw [restRender_cons₂]
      have hform : (' ' :: w ++ [' ', c] ++ restRender c (w2 :: ws')) ++ [' ', c]
          = (' ' :: (w ++ [' '])) ++ (c :: (restRender c (w2 :: ws') ++ [' ', c])) := by
        simp
      rw [hform]
      have hchlen : (' ' :: (w ++ [' '])).length = w.length + 2 := by simp
      obtain ⟨f, hf, hfR⟩ : ∃ f, fuel - (w.length + 2) = f + 1 ∧
          (restRender c (w2 :: ws')).length + 2 ≤ f := by
        refine ⟨fuel - (w.length + 2) - 1, ?_, ?_⟩ <;> omega
      have hprevA : prevAfter prev (' ' :: (w ++ [' '])) = some ' ' := by
        unfold prevAfter
        rw [getLast?_cons_of_ne_nil ' ' (w ++ [' ']) (by simp), List.getLast?_concat]
      have hinner : splitEscGo [c] (fuel - (' ' :: (w ++ [' '])).length)
          (c :: (restRender c (w2 :: ws') ++ [' ', c])) (prevAfter prev (' ' :: (w ++ [' '])))
          = [] :: ((w2 :: ws').map (fun w => ' ' :: w ++ [' ']) ++ [[]]) := by
        rw [hprevA, hchlen, hf]
        rw [splitEscGo_sep c f (restRender c (w2 :: ws') ++ [' ', c]) (some ' ') (by decide)]
        rw [ih f (some c) (by simp) (fun x hx => hcells x (List.mem_cons_of_mem w hx)) hfR]
      have hnotin : c ∉ ' ' :: (w ++ [' ']) := by
        intro hmem
        rcases List.mem_cons.mp hmem with h | h
        · exact hcsp h
        · rcases List.mem_append.mp h with h2 | h2
          · exact hcells w (List.mem_cons_self w _) h2
          · exact hcsp (List.mem_singleton.mp h2)
      rw [splitEscGo_chunk c (' ' :: (w ++ [' ']))
        (c :: (restRender c (w2 :: ws') ++ [' ', c])) fuel prev
        hnotin (by rw [hchlen]; omega) []
        ((w2 :: ws').map (fun w => ' ' :: w ++ [' ']) ++ [[]]) hinner]
      simp

theorem map_clean_pad (schema : ParsingSchema) (c : Char)
    (hcs : schema.column_separator = [c]) (hst : schema.strip_whitespace = true)
    (cells : List Str) (hcells : ∀ w ∈ cells, GoodCell c w) :
    (cells.map (fun w => ' ' :: w ++ [' '])).map (fun p => clean_cell p schema) = cells := by
  rw [List.map_map]
  have hpt : ∀ w ∈ cells,
      ((fun p => clean_cell p schema) ∘ (fun w => ' ' :: w ++ [' '])) w = w := by
    intro w hw
    show clean_cell (' ' :: w ++ [' ']) schema = w
    exact clean_cell_pad schema c hcs hst w (hcells w hw).1 (hcells w hw).2.2.1
      [' '] [' '] (by decide) (by decide)
  rw [List.map_congr_left hpt]
  simp

theorem parse_row_wrapped (schema : ParsingSchema) (c : Char)
    (hcs : schema.column_separator = [c]) (hst : schema.strip_whitespace = true)
    (hcsp : isPySpace c = false) (cells : List Str) (hne : cells ≠ [])
    (hcells : ∀ w ∈ cells, GoodCell c w) :
    parse_row ([c] ++ restRender c cells ++ [' ', c]) schema = some cells := by
  have hcne : c ≠ ' ' := by
    intro h
    rw [h] at hcsp
    exact absurd hcsp (by decide)
  have hcnotin : ∀ w ∈ cells, c ∉ w := fun w hw => (hcells w hw).1
  have hstrip : pyStrip ([c] ++ restRender c cells ++ [' ', c])
      = [c] ++ restRender c cells ++ [' ', c] := by
    apply pyStrip_eq_self
    · intro a ha
      have hh : ([c] ++ restRender c cells ++ [' ', c]).head? = some c := by
        rw [show [c] ++ restRender c cells ++ [' ', c]
            = c :: (restRender c cells ++ [' ', c]) from by simp]
        rfl
      rw [hh] at ha
      injection ha with ha
      rw [← ha]
      exact hcsp
    · intro a ha
      have hh : ([c] ++ restRender c cells ++ [' ', c]).getLast? = some c := by
        rw [show [c] ++ restRender c cells ++ [' ', c]
            = ([c] ++ restRender c cells ++ [' ']) ++ [c] from by simp]
        exact List.getLast?_concat _
      rw [hh] at ha
      injection ha with ha
      rw [← ha]
      exact hcsp
  have hsplit : splitEsc schema.column_separator ([c] ++ restRender c cells ++ [' ', c])
      = [] :: (cells.map (fun w => ' ' :: w ++ [' ']) ++ [[]]) := by
    rw [hcs]
    unfold splitEsc
    rw [if_neg (by simp)]
    rw [show [c] ++ restRender c cells ++ [' ', c]
        = c :: (restRender c cells ++ [' ', c]) from by simp]
    rw [List.length_cons]
    rw [splitEscGo_sep c (restRender c cells ++ [' ', c]).length _ none (by simp)]
    rw [splitEscGo_restRender_closed c hcne cells _ (some c) hne hcnotin (by simp)]
  simp only [parse_row, hstrip,
    if_neg (show ¬([c] ++ restRender c cells ++ [' ', c] = []) from by simp), hsplit]
  rw [if_pos (by simp)]
  simp only [List.headD_cons]
  rw [if_pos (show pyStrip ([] : Str) = [] from rfl)]
  simp only [List.drop_succ_cons, List.drop_zero]
  have hgl : (cells.map (fun w => ' ' :: w ++ [' ']) ++ [[]]).getLastD ([] : Str) = [] := by
    rw [List.getLastD_eq_getLast?, List.getLast?_concat]
    rfl
  rw [if_pos ⟨by simp, by rw [hgl]; rfl⟩]
  rw [List.dropLast_concat]
  rw [map_clean_pad schema c hcs hst cells hcells]

theorem getLast?_cons_ne_nil {α : Type} (a : α) (l : List α) (h : l ≠ []) :
    (a :: l).getLast? = l.getLast? := by
  cases l with
  | nil => exact absurd rfl h
  | cons b t => exact List.getLast?_cons_cons

theorem tailParts_ne_nil (cells : List Str) : tailParts cells ≠ [] := by
  cases cells with
  | nil => simp [tailParts]
  | cons w ws =>
    cases ws with
    | nil => simp [tailParts]
    | cons w2 ws' => simp [tailParts]

theorem tailParts_getLast? : ∀ (cells : List Str), cells ≠ [] →
    ∃ wn, wn ∈ cells ∧ (tailParts cells).getLast? = some (' ' :: wn) := by
  intro cells
  induction cells with
  | nil => intro h; exact absurd rfl h
  | cons w ws ih =>
    intro _
    cases ws with
    | nil => exact ⟨w, List.mem_cons_self w [], rfl⟩
    | cons w2 ws' =>
      obtain ⟨wn, hmem, hlast⟩ := ih (by simp)
      refine ⟨wn, List.mem_cons_of_mem w hmem, ?_⟩
      show ((' ' :: w ++ [' ']) :: tailParts (w2 :: ws')).getLast? = some (' ' :: wn)
      rw [getLast?_cons_ne_nil _ _ (tailParts_ne_nil (w2 :: ws'))]
      exact hlast

theorem map_clean_tailParts (schema : ParsingSchema) (c : Char)
    (hcs : schema.column_separator = [c]) (hst : schema.strip_whitespace = true) :
    ∀ (cells : List Str), cells ≠ [] → (∀ w ∈ cells, GoodCell c w) →
      (tailParts cells).map (fun p => clean_cell p schema) = cells := by
  intro cells
  induction cells with
  | nil => intro h; exact absurd rfl h
  | cons w ws ih =>
    intro _ hcells
    cases ws with
    | nil =>
      show [clean_cell (' ' :: w) schema] = [w]
      have hcc := clean_cell_pad schema c hcs hst w (hcells w (List.mem_cons_self w [])).1
        (hcells w (List.mem_cons_self w [])).2.2.1 [' '] [] (by decide) (by decide)
      rw [show ([' '] ++ w ++ [] : Str) = ' ' :: w from by simp] at hcc
      rw [hcc]
    | cons w2 ws' =>
      show clean_cell (' ' :: w ++ [' ']) schema
          :: (tailParts (w2 :: ws')).map (fun p => clean_cell p schema) = w :: w2 :: ws'
      rw [show clean_cell (' ' :: w ++ [' ']) schema = w from
        clean_cell_pad schema c hcs hst w (hcells w (List.mem_cons_self w _)).1
          (hcells w (List.mem_cons_self w _)).2.2.1 [' '] [' '] (by decide) (by decide)]
      rw [ih (by simp) (fun x hx => hcells x (List.mem_cons_of_mem w hx))]

theorem intercalate_head? (sep w : Str) (ws : List Str) (hw : w ≠ []) :
    (List.intercalate sep (w :: ws)).head? = w.head? := by
  cases ws with
  | nil => rw [intercalate_single]
  | cons y rest =>
    rw [intercalate_cons_cons, List.append_assoc, head?_append_of_ne_nil w _ hw]

theorem intercalate_noNl (c : Char) (hc : c ≠ '\n') (cells : List Str)
    (hcells : ∀ w ∈ cells, '\n' ∉ w) :
    '\n' ∉ List.intercalate [' ', c, ' '] cells := by
  cases cells with
  | nil => simp [List.intercalate]
  | cons w ws =>
    have hrr := restRender_noNl c hc (w :: ws) hcells
    rw [restRender_eq_cons_intercalate c (w :: ws) (by simp)] at hrr
    intro hmem
    exact hrr (List.mem_cons_of_mem ' ' hmem)

theorem parse_row_base (schema : ParsingSchema) (c : Char)
    (hcs : schema.column_separator = [c]) (hst : schema.strip_whitespace = true)
    (hcsp : isPySpace c = false) (cells : List Str) (hne : cells ≠ [])
    (hcells : ∀ w ∈ cells, GoodCell c w) :
    parse_row (List.intercalate [' ', c, ' '] cells) schema = some cells := by
  have hcne : c ≠ ' ' := by
    intro h
    rw [h] at hcsp
    exact absurd hcsp (by decide)
  cases cells with
  | nil => exact absurd rfl hne
  | cons w ws =>
    obtain ⟨hwc, hwn, hws, hwne⟩ := hcells w (List.mem_cons_self w ws)
    cases ws with
    | nil =>
      rw [intercalate_single]
      have hsplit : splitEsc schema.column_separator w = [w] := by
        rw [hcs]
        unfold splitEsc
        rw [if_neg (by simp)]
        exact splitEscGo_no_sep c w.length w none hwc
      simp only [parse_row, hws, if_neg hwne, hsplit]
      rw [if_neg (by simp)]
      show some [clean_cell w schema] = some [w]
      rw [clean_cell_id schema c hcs hst w hwc hws]
    | cons w2 ws' =>
      have hrestcells : ∀ x ∈ w2 :: ws', GoodCell c x :=
        fun x hx => hcells x (List.mem_cons_of_mem w hx)
      have hL : List.intercalate [' ', c, ' '] (w :: w2 :: ws')
          = (w ++ [' ']) ++ (c :: restRender c (w2 :: ws')) := by
        rw [intercalate_cons_cons, restRender_eq_cons_intercalate c (w2 :: ws') (by simp)]
        simp
      rw [hL]
      have hstrip : pyStrip ((w ++ [' ']) ++ (c :: restRender c (w2 :: ws')))
          = (w ++ [' ']) ++ (c :: restRender c (w2 :: ws')) := by
        apply pyStrip_eq_self
        · intro a ha
          rw [List.append_assoc, head?_append_of_ne_nil w _ hwne] at ha
          exact head_not_space_of_stripped w hws a ha
        · intro a ha
          rw [List.getLast?_append] at ha
          have hrne : restRender c (w2 :: ws') ≠ [] := restRender_ne_nil c _ (by simp)
          rw [getLast?_cons_ne_nil c _ hrne] at ha
          cases hg : (restRender c (w2 :: ws')).getLast? with
          | none => exact absurd (List.getLast?_eq_none_iff.mp hg) hrne
          | some b =>
            rw [hg] at ha
            simp only [Option.or_some] at ha
            injection ha with ha
            subst ha
            exact restRender_last_not_space c (w2 :: ws') (by simp)
              (fun x hx => ⟨(hrestcells x hx).2.2.1, (hrestcells x hx).2.2.2⟩) b hg
      have hLne : ¬((w ++ [' ']) ++ (c :: restRender c (w2 :: ws')) = []) := by simp
      have hsplit : splitEsc schema.column_separator
          ((w ++ [' ']) ++ (c :: restRender c (w2 :: ws')))
          = (w ++ [' ']) :: tailParts (w2 :: ws') := by
        rw [hcs]
        unfold splitEsc
        rw [if_neg (by simp)]
        have hwnotin : c ∉ w ++ [' '] := by
          intro hmem
          rcases List.mem_append.mp hmem with hm | hm
          · exact hwc hm
          · exact hcne (List.mem_singleton.mp hm)
        have hlenle : (w ++ [' ']).length
            ≤ ((w ++ [' ']) ++ (c :: restRender c (w2 :: ws'))).length := by
          simp
        have hprevA : prevAfter none (w ++ [' ']) = some ' ' := by
          unfold prevAfter
          rw [List.getLast?_concat]
        have hf : ((w ++ [' ']) ++ (c :: restRender c (w2 :: ws'))).length
            - (w ++ [' ']).length = (restRender c (w2 :: ws')).length + 1 := by
          simp only [List.length_append, List.length_cons, List.length_singleton]
          omega
        have hinner : splitEscGo [c]
            (((w ++ [' ']) ++ (c :: restRender c (w2 :: ws'))).length - (w ++ [' ']).length)
            (c :: restRender c (w2 :: ws')) (prevAfter none (w ++ [' ']))
            = [] :: tailParts (w2 :: ws') := by
          rw [hprevA, hf]
          rw [splitEscGo_sep c (restRender c (w2 :: ws')).length _ (some ' ') (by decide)]
          rw [splitEscGo_restRender c hcne (w2 :: ws') _ (some c) (by simp)
            (fun x hx => (hrestcells x hx).1) (le_refl _)]
        have := splitEscGo_chunk c (w ++ [' ']) (c :: restRender c (w2 :: ws'))
          ((w ++ [' ']) ++ (c :: restRender c (w2 :: ws'))).length none hwnotin hlenle
          [] (tailParts (w2 :: ws')) hinner
        rw [this]
        simp
      simp only [parse_row, hstrip, if_neg hLne, hsplit]
      have htpc : ∃ p ps, tailParts (w2 :: ws') = p :: ps := by
        cases ws' with
        | nil => exact ⟨' ' :: w2, [], rfl⟩
        | cons w3 ws'' => exact ⟨' ' :: w2 ++ [' '], tailParts (w3 :: ws''), rfl⟩
      obtain ⟨p, ps, htp⟩ := htpc
      rw [if_pos (by rw [htp]; simp)]
      simp only [List.headD_cons]
      have hshead : pyStrip (w ++ [' ']) = w :=
        pyStrip_pad w hws [] [' '] (by decide) (by decide)
      simp only [if_neg (show ¬(pyStrip (w ++ [' ']) = []) from by
        rw [hshead]; exact hwne)]
      obtain ⟨wn, hwnmem, hwnlast⟩ := tailParts_getLast? (w2 :: ws') (by simp)
      have hglD : (((w ++ [' ']) :: tailParts (w2 :: ws')).getLastD ([] : Str)) = ' ' :: wn := by
        rw [List.getLastD_eq_getLast?, getLast?_cons_ne_nil _ _ (tailParts_ne_nil _), hwnlast]
        rfl
      have hpswn := pyStrip_pad wn (hrestcells wn hwnmem).2.2.1 [' '] [] (by decide) (by decide)
      rw [show ([' '] ++ wn ++ [] : Str) = ' ' :: wn from by simp] at hpswn
      simp only [if_neg (show ¬(((w ++ [' ']) :: tailParts (w2 :: ws')) ≠ [] ∧
          pyStrip ((((w ++ [' ']) :: tailParts (w2 :: ws')).getLastD ([] : Str))) = []) from by
        intro hcontra
        have habs := hcontra.2
        rw [hglD, hpswn] at habs
        exact (hrestcells wn hwnmem).2.2.2 habs)]
      show some (clean_cell (w ++ [' ']) schema
        :: (tailParts (w2 :: ws')).map (fun p => clean_cell p schema)) = _
      rw [show clean_cell (w ++ [' ']) schema = w from
        clean_cell_pad schema c hcs hst w hwc hws [] [' '] (by decide) (by decide)]
      rw [map_clean_tailParts schema c hcs hst (w2 :: ws') (by simp) hrestcells]

theorem wrapOuter_cons (schema : ParsingSchema) (c : Char)
    (hcs : schema.column_separator = [c]) (s : Str) :
    wrapOuter schema s = c :: ' ' :: (s ++ [' ', c]) := by
  unfold wrapOuter
  rw [hcs]
  simp

theorem wrapOuter_concat (schema : ParsingSchema) (c : Char)
    (hcs : schema.column_separator = [c]) (s : Str) :
    wrapOuter schema s = (c :: ' ' :: (s ++ [' '])) ++ [c] := by
  rw [wrapOuter_cons schema c hcs]
  simp

theorem parse_row_rLine (schema : ParsingSchema) (c : Char)
    (hcs : schema.column_separator = [c]) (hst : schema.strip_whitespace = true)
    (hcsp : isPySpace c = false) (cells : List Str) (hne : cells ≠ [])
    (hcells : ∀ w ∈ cells, GoodCell c w) :
    parse_row (rLine schema cells) schema = some cells := by
  unfold rLine
  rw [hcs]
  cases hro : schema.require_outer_pipes with
  | false =>
    rw [if_neg (show ¬(false = true) from by simp)]
    exact parse_row_base schema c hcs hst hcsp cells hne hcells
  | true =>
    rw [if_pos (show true = true from rfl)]
    have hw : wrapOuter schema (List.intercalate ([' '] ++ [c] ++ [' ']) cells)
        = [c] ++ restRender c cells ++ [' ', c] := by
      rw [wrapOuter_cons schema c hcs,
        show ([' '] ++ [c] ++ [' '] : Str) = [' ', c, ' '] from rfl,
        restRender_eq_cons_intercalate c cells hne]
      simp
    rw [hw]
    exact parse_row_wrapped schema c hcs hst hcsp cells hne hcells

theorem rLine_noNl (schema : ParsingSchema) (c : Char)
    (hcs : schema.column_separator = [c]) (hcnl : c ≠ '\n')
    (cells : List Str) (hcells : ∀ w ∈ cells, '\n' ∉ w) :
    '\n' ∉ rLine schema cells := by
  unfold rLine
  rw [hcs, show ([' '] ++ [c] ++ [' '] : Str) = [' ', c, ' '] from rfl]
  have hI : '\n' ∉ List.intercalate [' ', c, ' '] cells := intercalate_noNl c hcnl cells hcells
  cases hro : schema.require_outer_pipes with
  | false => rw [if_neg (show ¬(false = true) from by simp)]; exact hI
  | true =>
    rw [if_pos (show true = true from rfl), wrapOuter_cons schema c hcs]
    intro hmem
    rcases List.mem_cons.mp hmem with hm | hm
    · exact hcnl hm.symm
    · rcases List.mem_cons.mp hm with hm2 | hm2
      · exact absurd hm2.symm (by decide)
      · rcases List.mem_append.mp hm2 with hm3 | hm3
        · exact hI hm3
        · rcases List.mem_cons.mp hm3 with hm4 | hm4
          · exact absurd hm4.symm (by decide)
          · exact hcnl (List.mem_singleton.mp hm4).symm

theorem rLine_ne_nil (schema : ParsingSchema) (c : Char)
    (hcs : schema.column_separator = [c]) (cells : List Str) (hne : cells ≠ [])
    (hcells : ∀ w ∈ cells, w ≠ []) : rLine schema cells ≠ [] := by
  unfold rLine
  rw [hcs]
  cases hro : schema.require_outer_pipes with
  | true => rw [if_pos (show true = true from rfl), wrapOuter_cons schema c hcs]; simp
  | false =>
    rw [if_neg (show ¬(false = true) from by simp)]
    cases cells with
    | nil => exact absurd rfl hne
    | cons w ws =>
      cases ws with
      | nil => rw [intercalate_single]; exact hcells w (List.mem_cons_self w [])
      | cons y rest =>
        rw [intercalate_cons_cons]
        intro e
        simp at e

theorem rLine_head_not_space (schema : ParsingSchema) (c : Char)
    (hcs : schema.column_separator = [c]) (hcsp : isPySpace c = false)
    (cells : List Str) (hne : cells ≠ [])
    (hcells : ∀ w ∈ cells, pyStrip w = w ∧ w ≠ []) :
    ∀ a, (rLine schema cells).head? = some a → isPySpace a = false := by
  intro a ha
  unfold rLine at ha
  rw [hcs] at ha
  cases hro : schema.require_outer_pipes with
  | true =>
    rw [if_pos hro, wrapOuter_cons schema c hcs] at ha
    rw [List.head?_cons] at ha
    injection ha with ha
    rw [← ha]
    exact hcsp
  | false =>
    rw [if_neg (by rw [hro]; simp : ¬(schema.require_outer_pipes = true))] at ha
    cases cells with
    | nil => exact absurd rfl hne
    | cons w ws =>
      have hw := hcells w (List.mem_cons_self w ws)
      rw [intercalate_head? _ w ws hw.2] at ha
      exact head_not_space_of_stripped w hw.1 a ha

theorem rLine_last_not_space (schema : ParsingSchema) (c : Char)
    (hcs : schema.column_separator = [c]) (hcsp : isPySpace c = false)
    (cells : List Str) (hne : cells ≠ [])
    (hcells : ∀ w ∈ cells, pyStrip w = w ∧ w ≠ []) :
    ∀ a, (rLine schema cells).getLast? = some a → isPySpace a = false := by
  intro a ha
  unfold rLine at ha
  rw [hcs, show ([' '] ++ [c] ++ [' '] : Str) = [' ', c, ' '] from rfl] at ha
  cases hro : schema.require_outer_pipes with
  | true =>
    rw [if_pos hro, wrapOuter_concat schema c hcs, List.getLast?_concat] at ha
    injection ha with ha
    rw [← ha]
    exact hcsp
  | false =>
    rw [if_neg (by rw [hro]; simp : ¬(schema.require_outer_pipes = true))] at ha
    have hrr : restRender c cells = ' ' :: List.intercalate [' ', c, ' '] cells :=
      restRender_eq_cons_intercalate c cells hne
    cases cells with
    | nil => exact absurd rfl hne
    | cons w ws =>
      have hIne : List.intercalate [' ', c, ' '] (w :: ws) ≠ [] := by
        intro e
        have := intercalate_head? [' ', c, ' '] w ws (hcells w (List.mem_cons_self w ws)).2
        rw [e] at this
        cases hwc : w with
        | nil => exact (hcells w (List.mem_cons_self w ws)).2 hwc
        | cons x t =>
          rw [hwc] at this
          simp at this
      have hlast : (restRender c (w :: ws)).getLast?
          = (List.intercalate [' ', c, ' '] (w :: ws)).getLast? := by
        rw [hrr]
        exact getLast?_cons_ne_nil ' ' _ hIne
      rw [← hlast] at ha
      exact restRender_last_not_space c (w :: ws) (by simp) hcells a ha

theorem joinNl_head? (l : Str) (rest : List Str) (hl : l ≠ []) :
    (joinNl (l :: rest)).head? = l.head? := by
  cases rest with
  | nil => rw [joinNl_single]
  | cons l2 rest' => rw [joinNl_cons_cons]; exact head?_append_of_ne_nil l _ hl

theorem joinNl_ne_nil (l : Str) (rest : List Str) (hl : l ≠ []) :
    joinNl (l :: rest) ≠ [] := by
  intro hnil
  have hh := joinNl_head? l rest hl
  rw [hnil] at hh
  cases hwc : l with
  | nil => exact hl hwc
  | cons x t =>
    rw [hwc] at hh
    simp at hh

theorem joinNl_getLast_not_space : ∀ (ls : List Str),
    (∀ l ∈ ls, l ≠ [] ∧ ∀ a, l.getLast? = some a → isPySpace a = false) →
    ∀ a, (joinNl ls).getLast? = some a → isPySpace a = false := by
  intro ls
  induction ls with
  | nil =>
    intro _ a ha
    simp [joinNl, List.intercalate] at ha
  | cons l rest ih =>
    intro h a ha
    cases rest with
    | nil =>
      rw [joinNl_single] at ha
      exact (h l (List.mem_cons_self l [])).2 a ha
    | cons l2 rest' =>
      rw [joinNl_cons_cons] at ha
      have hJne : joinNl (l2 :: rest') ≠ [] :=
        joinNl_ne_nil l2 rest' (h l2 (List.mem_cons_of_mem l (List.mem_cons_self l2 rest'))).1
      rw [List.getLast?_append, getLast?_cons_ne_nil '\n' _ hJne] at ha
      cases hg : (joinNl (l2 :: rest')).getLast? with
      | none => exact absurd (List.getLast?_eq_none_iff.mp hg) hJne
      | some b =>
        rw [hg] at ha
        simp only [Option.or_some] at ha
        injection ha with ha
        subst ha
        exact ih (fun x hx => h x (List.mem_cons_of_mem l hx)) b hg

theorem generate_eq (table : Table) (schema : ParsingSchema) (hs : List Str)
    (hh : table.headers = some hs) (hne : hs ≠ []) :
    generate_table_markdown table schema
      = joinNl (rLine schema hs
          :: rLine schema (List.replicate hs.length
              (schema.header_separator_char ++ schema.header_separator_char
                ++ schema.header_separator_char))
          :: table.rows.map (rLine schema)) := by
  unfold generate_table_markdown rLine
  rw [hh]
  simp only [hne, ne_eq, not_false_eq_true, if_true]
  rfl

theorem pyReplaceGo_single_all (h : Char) : ∀ (n fuel : Nat), n ≤ fuel →
    pyReplaceGo [h] [] fuel (List.replicate n h) = [] := by
  intro n
  induction n with
  | zero => intro fuel _; cases fuel <;> rfl
  | succ m ih =>
    intro fuel hle
    obtain ⟨f, rfl⟩ : ∃ f, fuel = f + 1 := ⟨fuel - 1, by omega⟩
    rw [show List.replicate (m + 1) h = [h] ++ List.replicate m h from by
      rw [List.replicate_succ]; rfl]
    rw [pyReplaceGo_head_match [h] [] (List.replicate m h) f (by simp)]
    rw [ih f (by omega)]
    rfl

theorem is_separator_row_replicate (schema : ParsingSchema) (h : Char)
    (hhsc : schema.header_separator_char = [h]) (n : Nat) :
    is_separator_row (List.replicate n [h, h, h]) schema = true := by
  unfold is_separator_row
  rw [List.all_eq_true]
  intro cell hc
  rw [List.mem_replicate] at hc
  rw [hc.2, hhsc, Bool.and_eq_true]
  constructor
  · have h1 : pyReplace [h] [] [h, h, h] = [] := by
      unfold pyReplace
      rw [if_neg (by simp)]
      rw [show ([h, h, h] : Str) = List.replicate 3 h from rfl]
      rw [show (List.replicate 3 h : Str).length = 3 from by simp]
      exact pyReplaceGo_single_all h 3 3 (le_refl 3)
    rw [h1]
    decide
  · exact containsSub_singleton h [h, h, h] |>.mpr (by simp)

theorem goodCell_hsc (c h : Char) (hhc : h ≠ c) (hhsp : isPySpace h = false) :
    GoodCell c [h, h, h] := by
  refine ⟨?_, ?_, ?_, by simp⟩
  · intro hmem
    have : c = h := by
      rcases List.mem_cons.mp hmem with e | e
      · exact e
      · rcases List.mem_cons.mp e with e2 | e2
        · exact e2
        · exact List.mem_singleton.mp e2
    exact hhc this.symm
  · intro hmem
    have : '\n' = h := by
      rcases List.mem_cons.mp hmem with e | e
      · exact e
      · rcases List.mem_cons.mp e with e2 | e2
        · exact e2
        · exact List.mem_singleton.mp e2
    rw [← this] at hhsp
    exact absurd hhsp (by decide)
  · apply pyStrip_eq_self
    · intro a ha
      rw [show ([h, h, h] : Str).head? = some h from rfl] at ha
      injection ha with ha
      rw [← ha]
      exact hhsp
    · intro a ha
      rw [show ([h, h, h] : Str).getLast? = some h from rfl] at ha
      injection ha with ha
      rw [← ha]
      exact hhsp

theorem ptStep_first (schema : ParsingSchema) (l : Str) (pr : List Str)
    (rs : List (List Str)) (hb : pyStrip l ≠ [])
    (hpr : parse_row (pyStrip l) schema = some pr) :
    ptStep schema ⟨none, rs, none⟩ l = ⟨none, rs, some pr⟩ := by
  rw [ptStep_parsed schema ⟨none, rs, none⟩ l pr hb hpr]

theorem ptStep_commit (schema : ParsingSchema) (l : Str) (pr ph : List Str)
    (rs : List (List Str)) (hb : pyStrip l ≠ [])
    (hpr : parse_row (pyStrip l) schema = some pr)
    (hsep : is_separator_row pr schema = true) :
    ptStep schema ⟨none, rs, some ph⟩ l = ⟨some ph, rs, none⟩ := by
  rw [ptStep_parsed schema ⟨none, rs, some ph⟩ l pr hb hpr]
  simp only [hsep, if_true]

theorem ptFold_all_parsed (schema : ParsingSchema) :
    ∀ (rows : List (List Str)) (hs : List Str) (acc : List (List Str)),
      (∀ r ∈ rows, parse_row (rLine schema r) schema = some r) →
      (rows.map (rLine schema)).foldl (ptStep schema) ⟨some hs, acc, none⟩
        = ⟨some hs, acc ++ rows, none⟩ := by
  intro rows
  induction rows with
  | nil => intro hs acc _; simp
  | cons r rest ih =>
    intro hs acc hall
    rw [List.map_cons, List.foldl_cons]
    have hpr := hall r (List.mem_cons_self r rest)
    have hb : pyStrip (rLine schema r) ≠ [] := by
      intro hbb
      have hn := (parse_row_eq_none_iff (rLine schema r) schema).mpr hbb
      rw [hn] at hpr
      exact Option.noConfusion hpr
    have hpr' : parse_row (pyStrip (rLine schema r)) schema = some r := by
      rw [parse_row_strip]
      exact hpr
    rw [ptStep_parsed schema ⟨some hs, acc, none⟩ (rLine schema r) r hb hpr']
    rw [ih hs (acc ++ [r]) (fun x hx => hall x (List.mem_cons_of_mem r hx))]
    simp

theorem normalizeRows_id (n : Nat) (rows : List (List Str))
    (h : ∀ r ∈ rows, r.length = n) : normalizeRows n rows = rows := by
  unfold normalizeRows
  have hcong : ∀ r ∈ rows,
      (fun row => if row.length < n then row ++ List.replicate (n - row.length) []
        else if row.length > n then row.take n else row) r = id r := by
    intro r hr
    simp [h r hr]
  rw [List.map_congr_left hcong, List.map_id]

/-- C1 counterexample to the unrestricted round-trip: the table with header
`["A"]` and the single row `[""]` contains the column separator in no cell,
yet generating under the default schema renders the row as an empty line,
which the parser drops, so the reparsed table loses the row. -/
theorem c1_counterexample :
    (∀ w ∈ [strL "A"], '|' ∉ w) ∧ (∀ r ∈ [[([] : Str)]], ∀ w ∈ r, '|' ∉ w) ∧
    (parse_table (generate_table_markdown
        { headers := some [strL "A"], rows := [[[]]] } DEFAULT_SCHEMA) DEFAULT_SCHEMA).rows
      ≠ ({ headers := some [strL "A"], rows := [[[]]] } : Table).rows := by
  decide

/-- C1 (corrected): the generate/parse round trip restores headers and rows
exactly for every schema whose column separator is a single non-whitespace,
non-backslash character `c`, whose header separator is a single
non-whitespace character distinct from `c`, and whose `strip_whitespace` is
on (`require_outer_pipes` may be either value), provided the table has a
non-empty header list, every header and row cell is separator-free,
newline-free, whitespace-trimmed and non-empty, and every row has exactly
as many cells as there are headers.  The original claim, which asks only
that no cell contain the separator character, is refuted by
`c1_counterexample`: an empty cell in a one-column table renders as an
empty line that the parser skips. -/
theorem c1_round_trip (t : Table) (schema : ParsingSchema) (c h : Char) (hs : List Str)
    (hgood : GoodSchema schema c h) (hh : t.headers = some hs) (hne : hs ≠ [])
    (hcellsH : ∀ w ∈ hs, GoodCell c w)
    (hcellsR : ∀ r ∈ t.rows, ∀ w ∈ r, GoodCell c w)
    (hlen : ∀ r ∈ t.rows, r.length = hs.length) :
    (parse_table (generate_table_markdown t schema) schema).headers = some hs ∧
    (parse_table (generate_table_markdown t schema) schema).rows = t.rows := by
  obtain ⟨hcs, hhsc, hst, hcsp, hcbs, hhsp, hhc⟩ := hgood
  have hcnl : c ≠ '\n' := by
    intro e
    rw [e] at hcsp
    exact absurd hcsp (by decide)
  have hsepGood : ∀ w ∈ List.replicate hs.length ([h, h, h] : Str), GoodCell c w := by
    intro w hw
    rw [List.mem_replicate] at hw
    rw [hw.2]
    exact goodCell_hsc c h hhc hhsp
  have hrepne : List.replicate hs.length ([h, h, h] : Str) ≠ [] := by
    cases hs with
    | nil => exact absurd rfl hne
    | cons a tl => simp [List.replicate_succ]
  have hrowne : ∀ r ∈ t.rows, r ≠ [] := by
    intro r hr e
    have h0 : hs.length = 0 := by rw [← hlen r hr, e]; rfl
    cases hhs0 : hs with
    | nil => exact hne hhs0
    | cons x xs =>
      rw [hhs0] at h0
      simp at h0
  have hgen : generate_table_markdown t schema
      = joinNl (rLine schema hs :: rLine schema (List.replicate hs.length [h, h, h])
          :: t.rows.map (rLine schema)) := by
    rw [generate_eq t schema hs hh hne, hhsc]
    rfl
  have hprH : parse_row (rLine schema hs) schema = some hs :=
    parse_row_rLine schema c hcs hst hcsp hs hne hcellsH
  have hprS : parse_row (rLine schema (List.replicate hs.length [h, h, h])) schema
      = some (List.replicate hs.length [h, h, h]) :=
    parse_row_rLine schema c hcs hst hcsp _ hrepne hsepGood
  have hprRows : ∀ r ∈ t.rows, parse_row (rLine schema r) schema = some r := by
    intro r hr
    exact parse_row_rLine schema c hcs hst hcsp r (hrowne r hr) (hcellsR r hr)
  have hlineFacts : ∀ l ∈ (rLine schema hs
      :: rLine schema (List.replicate hs.length [h, h, h])
      :: t.rows.map (rLine schema)),
      l ≠ [] ∧ (∀ a, l.getLast? = some a → isPySpace a = false) ∧ '\n' ∉ l := by
    have base : ∀ (cells : List Str), cells ≠ [] → (∀ w ∈ cells, GoodCell c w) →
        rLine schema cells ≠ [] ∧ (∀ a, (rLine schema cells).getLast? = some a →
          isPySpace a = false) ∧ '\n' ∉ rLine schema cells := by
      intro cells hcne2 hc2
      exact ⟨rLine_ne_nil schema c hcs cells hcne2 (fun w hw => (hc2 w hw).2.2.2),
        rLine_last_not_space schema c hcs hcsp cells hcne2
          (fun w hw => ⟨(hc2 w hw).2.2.1, (hc2 w hw).2.2.2⟩),
        rLine_noNl schema c hcs hcnl cells (fun w hw => (hc2 w hw).2.1)⟩
    intro l hl
    rcases List.mem_cons.mp hl with e | hl2
    · rw [e]
      exact base hs hne hcellsH
    · rcases List.mem_cons.mp hl2 with e | hl3
      · rw [e]
        exact base _ hrepne hsepGood
      · rw [List.mem_map] at hl3
        obtain ⟨r, hr, he⟩ := hl3
        rw [← he]
        exact base r (hrowne r hr) (hcellsR r hr)
  have hstripmd : pyStrip (generate_table_markdown t schema)
      = generate_table_markdown t schema := by
    rw [hgen]
    apply pyStrip_eq_self
    · intro a ha
      rw [joinNl_head? _ _ (hlineFacts _ (List.mem_cons_self _ _)).1] at ha
      exact rLine_head_not_space schema c hcs hcsp hs hne
        (fun w hw => ⟨(hcellsH w hw).2.2.1, (hcellsH w hw).2.2.2⟩) a ha
    · exact joinNl_getLast_not_space _
        (fun l hl => ⟨(hlineFacts l hl).1, (hlineFacts l hl).2.1⟩)
  have hsplitlines : splitOnNl (pyStrip (generate_table_markdown t schema))
      = rLine schema hs :: rLine schema (List.replicate hs.length [h, h, h])
        :: t.rows.map (rLine schema) := by
    rw [hstripmd, hgen]
    exact splitOnNl_joinNl _ (by simp) (fun l hl => (hlineFacts l hl).2.2)
  have hbH : pyStrip (rLine schema hs) ≠ [] := by
    intro hbb
    have hn := (parse_row_eq_none_iff _ schema).mpr hbb
    rw [hn] at hprH
    exact Option.noConfusion hprH
  have hbS : pyStrip (rLine schema (List.replicate hs.length [h, h, h])) ≠ [] := by
    intro hbb
    have hn := (parse_row_eq_none_iff _ schema).mpr hbb
    rw [hn] at hprS
    exact Option.noConfusion hprS
  have hfold : (rLine schema hs :: rLine schema (List.replicate hs.length [h, h, h])
      :: t.rows.map (rLine schema)).foldl (ptStep schema) ⟨none, [], none⟩
      = ⟨some hs, t.rows, none⟩ := by
    rw [List.foldl_cons]
    rw [ptStep_first schema _ hs [] hbH (by rw [parse_row_strip]; exact hprH)]
    rw [List.foldl_cons]
    rw [ptStep_commit schema _ (List.replicate hs.length [h, h, h]) hs [] hbS
      (by rw [parse_row_strip]; exact hprS)
      (is_separator_row_replicate schema h hhsc hs.length)]
    rw [ptFold_all_parsed schema t.rows hs [] hprRows]
    simp
  have hheaders : (parse_table (generate_table_markdown t schema) schema).headers
      = some hs := by
    rw [parse_table_headers, hsplitlines, hfold]
  refine ⟨hheaders, ?_⟩
  rw [parse_table_rows_of_headers (generate_table_markdown t schema) schema hs hheaders hne]
  rw [hsplitlines, hfold]
  rw [show finalizeRows ⟨some hs, t.rows, none⟩ = t.rows from by simp [finalizeRows]]
  exact normalizeRows_id hs.length t.rows hlen

theorem c1_witness :
    (parse_table (generate_table_markdown
        { headers := some [strL "A", strL "B"], rows := [[strL "1", strL "2"]] }
        DEFAULT_SCHEMA) DEFAULT_SCHEMA).headers = some [strL "A", strL "B"] ∧
    (parse_table (generate_table_markdown
        { headers := some [strL "A", strL "B"], rows := [[strL "1", strL "2"]] }
        DEFAULT_SCHEMA) DEFAULT_SCHEMA).rows = [[strL "1", strL "2"]] :=
  c1_round_trip { headers := some [strL "A", strL "B"], rows := [[strL "1", strL "2"]] }
    DEFAULT_SCHEMA '|' '-' [strL "A", strL "B"] (by decide) rfl (by decide)
    (by decide) (by decide) (by decide)

end MdSP
